import Mathlib

/-!
# genrp polynomial kernel (`cpp/include/genrp/poly.h`)

A shallow embedding of the dense polynomial routines of `poly.h` and of the
Sturm-sequence root counter built on them.

* The arithmetic is given two readings, over the same loops.  In the exact reading an
  `Eigen::VectorXd` is a `List ℚ` and the operations are those of the rationals: this is
  the reading of every property stated in exact arithmetic.  In the binary64 reading it
  is a `List Dbl` (routines named `…_dbl`) and each operation is the IEEE 754 one,
  rounded once to the nearest double (no fused multiply-add, no extended precision),
  with infinities, NaN and signed zeros: this is what the compiled code returns.
* A `for` loop over `0 .. n-1` is a left fold over `List.range n`; a loop that
  can `break` is a recursion on the number of iterations that remain.
* The C++ `int` quantities that can be negative (`rows() - 1`, `m - n + 1`)
  are `Int`s; a loop bound that is negative runs zero times (`Int.toNat`).
* A routine that can read or slice outside a vector, or size a vector
  negatively, returns `Option`; `none` is that undefined behaviour.
* In `ℚ`, `1 / 0 = 0`.  The source takes the reciprocal `1.0 / v[0]` with no
  guard, so exact statements about division carry the hypothesis `v[0] ≠ 0`; what the
  code does at `v[0] = 0` is stated in the binary64 reading, where `1.0 / 0` is infinite.
-/

namespace genrp

/-! ## The routines of `poly.h` in exact arithmetic -/

/-- The literal `1e-14` used by the scan of `polyrem`, as an exact rational. -/
def tol : ℚ := 1 / 100000000000000

/-- Horner evaluation `polyval`: `result = result * x + p[i]` for
`i = 0, …, rows - 1`, starting from `0`.  The index is bounded by the loop. -/
def polyval {R : Type} [CommRing R] (p : List R) (x : R) : R :=
  (List.range p.length).foldl (fun result i => result * x + p.getD i 0) 0

/-- Body of the loop of `polyadd`, `n = max n1 n2`:
`if (i < n1) result[n - i - 1] += p1[n1 - i - 1];`
`if (i < n2) result[n - i - 1] += p2[n2 - i - 1];`
Every index is bounded by its guard and by `i < n`. -/
def polyadd_body (p1 p2 : List ℚ) (n : Nat) (result : List ℚ) (i : Nat) : List ℚ :=
  let result :=
    if i < p1.length then
      result.set (n - i - 1) (result.getD (n - i - 1) 0 + p1.getD (p1.length - i - 1) 0)
    else result
  if i < p2.length then
    result.set (n - i - 1) (result.getD (n - i - 1) 0 + p2.getD (p2.length - i - 1) 0)
  else result

/-- Addition `polyadd`: the loop `for (i = 0; i < n; ++i)` on a zero vector of
length `n = max n1 n2`. -/
def polyadd (p1 p2 : List ℚ) : List ℚ :=
  let n := max p1.length p2.length
  (List.range n).foldl (polyadd_body p1 p2 n) (List.replicate n 0)

/-- Body of the inner loop of `polymul`:
`if (i - j >= 0 && i - j < n1 && j >= 0) result[i] += p1[i - j] * p2[j];` -/
def polymul_body (p1 p2 : List ℚ) (i : Nat) (result : List ℚ) (j : Nat) : List ℚ :=
  if j ≤ i ∧ i - j < p1.length then
    result.set i (result.getD i 0 + p1.getD (i - j) 0 * p2.getD j 0)
  else result

/-- The double loop of `polymul`: `i = 0, …, n - 1` and, inside, `j = 0, …, n2 - 1`. -/
def polymul_loop (p1 p2 : List ℚ) (n : Nat) (result : List ℚ) : List ℚ :=
  (List.range n).foldl
    (fun result i => (List.range p2.length).foldl (polymul_body p1 p2 i) result)
    result

/-- Multiplication `polymul`: `n = n1 + n2 - 1`; the vector `result(n)` cannot
be built when `n` is negative (both operands empty). -/
def polymul (p1 p2 : List ℚ) : Option (List ℚ) :=
  let n1 : Int := p1.length
  let n2 : Int := p2.length
  let n : Int := n1 + n2 - 1
  if n < 0 then none
  else some (polymul_loop p1 p2 n.toNat (List.replicate n.toNat 0))

/-- Checked write `v[i] = x`. -/
def vset (v : List ℚ) (i : Nat) (x : ℚ) : Option (List ℚ) :=
  if i < v.length then some (v.set i x) else none

/-- Inner loop of `polyrem`: `r[k+i] -= d * v[i]` for `i = 0, …, cnt - 1`. -/
def polyrem_inner (v : List ℚ) (d : ℚ) (k cnt : Nat) (r : List ℚ) : Option (List ℚ) :=
  (List.range cnt).foldlM
    (fun r i => do
      let ri ← r[k + i]?
      let vi ← v[i]?
      vset r (k + i) (ri - d * vi))
    r

/-- Outer loop of `polyrem`, for `k = 0, …, p - 1`: `d = scale * r[k]`,
`q[k] = d`, then the inner loop over the `cnt = n + 1` coefficients of `v`. -/
def polyrem_outer (v : List ℚ) (scale : ℚ) (cnt p : Nat) (q r : List ℚ) :
    Option (List ℚ × List ℚ) :=
  (List.range p).foldlM
    (fun (qr : List ℚ × List ℚ) k => do
      let rk ← qr.2[k]?
      let d := scale * rk
      let q ← vset qr.1 k d
      let r ← polyrem_inner v d k cnt qr.2
      pure (q, r))
    (q, r)

/-- Lines 43-53 of `polyrem`: the quotient `q` and the raw remainder buffer `r`
that the elimination loop leaves behind. -/
def polyrem_divide (u v : List ℚ) : Option (List ℚ × List ℚ) := do
  let m : Int := u.length - 1
  let n : Int := v.length - 1
  let p : Int := m - n + 1
  let v0 ← v[0]?
  let scale : ℚ := 1 / v0
  polyrem_outer v scale (n + 1).toNat p.toNat (List.replicate (max p 1).toNat 0) u

/-- The scan `for (strt = 0; strt < m; ++strt) if (abs(r[strt]) > 1e-14) break;`
with `fuel = m - strt` iterations left; the result is the final `strt`. -/
def polyrem_strt (r : List ℚ) : Nat → Nat → Option Nat
  | 0, strt => some strt
  | fuel + 1, strt => do
    let x ← r[strt]?
    if |x| > tol then some strt else polyrem_strt r fuel (strt + 1)

/-- The slice `r.tail(cnt)`: the last `cnt` coefficients of `r`. -/
def vtail (r : List ℚ) (cnt : Int) : Option (List ℚ) :=
  if 0 ≤ cnt ∧ cnt ≤ r.length then some (r.drop (r.length - cnt.toNat)) else none

/-- The slice `d.head(cnt)`: the first `cnt` coefficients of `d`. -/
def vhead (d : List ℚ) (cnt : Int) : Option (List ℚ) :=
  if 0 ≤ cnt ∧ cnt ≤ d.length then some (d.take cnt.toNat) else none

/-- Remainder `polyrem`: eliminate, scan for the first coefficient above the
threshold, return `r.tail(m + 1 - strt)`. -/
def polyrem (u v : List ℚ) : Option (List ℚ) := do
  let m : Int := u.length - 1
  let qr ← polyrem_divide u v
  let strt ← polyrem_strt qr.2 m.toNat 0
  vtail qr.2 (m + 1 - strt)

/-- Body of the loop of `polyder`: `d[i] *= n - i`, with `i < n < rows`. -/
def polyder_body (n : Int) (d : List ℚ) (i : Nat) : List ℚ :=
  d.set i (d.getD i 0 * ((n - (i : Int) : Int) : ℚ))

/-- Derivative `polyder`: the loop `for (i = 0; i < n; ++i)` on a copy of `p`,
then `d.head(n)`, with `n = rows - 1`. -/
def polyder (p : List ℚ) : Option (List ℚ) :=
  let n : Int := p.length - 1
  let d := (List.range n.toNat).foldl (polyder_body n) p
  vhead d n

/-- The statement `p1 *= -1.0`. -/
def vneg (p : List ℚ) : List ℚ := p.map (fun c => c * (-1))

/-- Loop of `polysturm` with `fuel = n - k` iterations left. -/
def polysturm_loop : Nat → List ℚ → List ℚ → List (List ℚ) → Option (List (List ℚ))
  | 0, _, _, sturm => some sturm
  | fuel + 1, p0, p1, sturm => do
    let tmp := p1
    let rem ← polyrem p0 p1
    let p1 := vneg rem
    let p0 := tmp
    let sturm := sturm ++ [p1]
    if p1.length = 1 then some sturm else polysturm_loop fuel p0 p1 sturm

/-- Sturm sequence `polysturm`. -/
def polysturm (p : List ℚ) : Option (List (List ℚ)) := do
  let n : Int := p.length - 1
  let p0 := p
  let p1 ← polyder p0
  polysturm_loop n.toNat p0 p1 [p0, p1]

/-- The template `sgn`: `(0 < val) - (val < 0)`. -/
def sgn (val : ℚ) : Int := (if 0 < val then 1 else 0) - (if val < 0 then 1 else 0)

/-- A C++ comparison used as an integer: `1` when true, `0` when false. -/
def b2i (b : Bool) : Int := if b then 1 else 0

/-- Loop of `polycountroots` with `fuel = n - k` iterations left. -/
def polycountroots_loop : Nat → List ℚ → List ℚ → Int → Int → Int → Option Int
  | 0, _, _, _, _, count => some count
  | fuel + 1, p0, p1, s_0, s_inf, count => do
    let tmp := p1
    let rem ← polyrem p0 p1
    let p1 := vneg rem
    let p0 := tmp
    let s := s_0
    let last ← p1[p1.length - 1]?
    let s_0 := sgn last
    let count := count + b2i (s != s_0)
    let s := s_inf
    let first ← p1[0]?
    let s_inf := sgn first
    let count := count - b2i (s != s_inf)
    if p1.length = 1 then some count
    else polycountroots_loop fuel p0 p1 s_0 s_inf count

/-- Root counter `polycountroots`. -/
def polycountroots (p : List ℚ) : Option Int := do
  let n : Int := p.length - 1
  let count : Int := 0
  let p0 := p
  let p1 ← polyder p0
  let l1 ← p1[p1.length - 1]?
  let s_0 := sgn l1
  let f1 ← p1[0]?
  let s_inf := sgn f1
  let l0 ← p0[p0.length - 1]?
  let count := count + b2i (sgn l0 != s_0)
  let f0 ← p0[0]?
  let count := count - b2i (sgn f0 != s_inf)
  polycountroots_loop n.toNat p0 p1 s_0 s_inf count

/-! ## Notions used to state the properties -/

/-- Coefficient of `x ^ k` in `p`: the entry at distance `k` from the
constant-term end, and `0` beyond the leading coefficient. -/
def coeffEnd (p : List ℚ) (k : Nat) : ℚ :=
  if k < p.length then p.getD (p.length - 1 - k) 0 else 0

/-- Term that the pass `(i, j)` of the double loop of `polymul` adds to `result[i]`. -/
def polymul_term (p1 p2 : List ℚ) (i j : Nat) : ℚ :=
  if j ≤ i ∧ i - j < p1.length then p1.getD (i - j) 0 * p2.getD j 0 else 0

/-- The polynomial that a coefficient vector denotes. -/
noncomputable def toPoly (p : List ℚ) : Polynomial ℚ :=
  ∑ k in Finset.range p.length, Polynomial.monomial k (coeffEnd p k)

/-! ## The loops with a record of their calls, and the sign-change counts -/

/-- Loop of `polysturm` that also records, in `calls`, the arguments `(u, v)` of every
call `polyrem(u, v)` it makes. -/
def polysturm_loop_traced : Nat → List ℚ → List ℚ → List (List ℚ) →
    List (List ℚ × List ℚ) → Option (List (List ℚ) × List (List ℚ × List ℚ))
  | 0, _, _, sturm, calls => some (sturm, calls)
  | fuel + 1, p0, p1, sturm, calls => do
    let tmp := p1
    let calls := calls ++ [(p0, p1)]
    let rem ← polyrem p0 p1
    let p1 := vneg rem
    let p0 := tmp
    let sturm := sturm ++ [p1]
    if p1.length = 1 then some (sturm, calls)
    else polysturm_loop_traced fuel p0 p1 sturm calls

/-- The routine `polysturm` with the record of its calls of `polyrem`. -/
def polysturm_traced (p : List ℚ) : Option (List (List ℚ) × List (List ℚ × List ℚ)) := do
  let n : Int := p.length - 1
  let p0 := p
  let p1 ← polyder p0
  polysturm_loop_traced n.toNat p0 p1 [p0, p1] []

/-- Loop of `polycountroots` that also records, in `calls`, the arguments `(u, v)` of
every call `polyrem(u, v)` it makes. -/
def polycountroots_loop_traced : Nat → List ℚ → List ℚ → Int → Int → Int →
    List (List ℚ × List ℚ) → Option (Int × List (List ℚ × List ℚ))
  | 0, _, _, _, _, count, calls => some (count, calls)
  | fuel + 1, p0, p1, s_0, s_inf, count, calls => do
    let tmp := p1
    let calls := calls ++ [(p0, p1)]
    let rem ← polyrem p0 p1
    let p1 := vneg rem
    let p0 := tmp
    let s := s_0
    let last ← p1[p1.length - 1]?
    let s_0 := sgn last
    let count := count + b2i (s != s_0)
    let s := s_inf
    let first ← p1[0]?
    let s_inf := sgn first
    let count := count - b2i (s != s_inf)
    if p1.length = 1 then some (count, calls)
    else polycountroots_loop_traced fuel p0 p1 s_0 s_inf count calls

/-- The routine `polycountroots` with the record of its calls of `polyrem`. -/
def polycountroots_traced (p : List ℚ) : Option (Int × List (List ℚ × List ℚ)) := do
  let n : Int := p.length - 1
  let count : Int := 0
  let p0 := p
  let p1 ← polyder p0
  let l1 ← p1[p1.length - 1]?
  let s_0 := sgn l1
  let f1 ← p1[0]?
  let s_inf := sgn f1
  let l0 ← p0[p0.length - 1]?
  let count := count + b2i (sgn l0 != s_0)
  let f0 ← p0[0]?
  let count := count - b2i (sgn f0 != s_inf)
  polycountroots_loop_traced n.toNat p0 p1 s_0 s_inf count []

/-- The terms that the loop shared by `polysturm` and `polycountroots` produces after
`p0` and `p1`: each new term is `-polyrem(p0, p1)`, and the loop stops after a term of
length `1` or when its `fuel` passes are used up. -/
def sturm_tail : Nat → List ℚ → List ℚ → Option (List (List ℚ))
  | 0, _, _ => some []
  | fuel + 1, p0, p1 => do
    let rem ← polyrem p0 p1
    let t := vneg rem
    if t.length = 1 then some [t]
    else do
      let rest ← sturm_tail fuel p1 t
      some (t :: rest)

/-- The calls of `polyrem` behind the terms `ext` that follow `p0` and `p1`. -/
def sturm_calls : List ℚ → List ℚ → List (List ℚ) → List (List ℚ × List ℚ)
  | _, _, [] => []
  | p0, p1, t :: rest => (p0, p1) :: sturm_calls p1 t rest

/-- Number of adjacent pairs of a list of signs whose two members differ. -/
def adjacentChanges : List Int → Nat
  | a :: b :: rest => (if a ≠ b then 1 else 0) + adjacentChanges (b :: rest)
  | _ => 0

/-- Count `V0` of the specification: the adjacent pairs of the sequence whose constant
terms (last coefficients) have different `sgn`. -/
def signChangesAtZero (S : List (List ℚ)) : Nat :=
  adjacentChanges (S.map (fun q => sgn (q.getD (q.length - 1) 0)))

/-- Count `Vinf` of the specification: the adjacent pairs of the sequence whose leading
coefficients (index `0`) have different `sgn`. -/
def signChangesAtInfinity (S : List (List ℚ)) : Nat :=
  adjacentChanges (S.map (fun q => sgn (q.getD 0 0)))

/-- A call `polyrem(u, v)` that divides safely: `v` is not empty, `v[0] ≠ 0`, and `u` is
longer than `v`. -/
def SafeCall (uv : List ℚ × List ℚ) : Prop :=
  uv.2 ≠ [] ∧ uv.2[0]? ≠ some 0 ∧ uv.2.length < uv.1.length

/-- Whether a call is safe can be computed. -/
instance instDecidableSafeCall (uv : List ℚ × List ℚ) : Decidable (SafeCall uv) := by
  unfold SafeCall
  infer_instance

/-! ## IEEE binary64 arithmetic

The routines of `poly.h` compute in `double`.  `Dbl` is the set of binary64 values and
each operation below is the IEEE 754 one: the exact result, rounded once to the nearest
double with ties to even, with the overflow, signed-zero, infinity and NaN cases. -/

/-- A binary64 value: a signed zero, a nonzero finite value (given by its exact rational
value), a signed infinity, or NaN.  `neg = true` is the sign bit. -/
inductive Dbl where
  | zero (neg : Bool)
  | fin (q : ℚ)
  | inf (neg : Bool)
  | nan
  deriving DecidableEq

/-- Exact value of a finite double, `0` for the other values (used only on finite ones). -/
def Dbl.val : Dbl → ℚ
  | Dbl.fin q => q
  | _ => 0

/-- Sign bit of a double (`false` for NaN, whose sign is never used). -/
def Dbl.isNeg : Dbl → Bool
  | Dbl.zero b => b
  | Dbl.fin q => decide (q < 0)
  | Dbl.inf b => b
  | Dbl.nan => false

/-- The power `2 ^ e` for an integer exponent. -/
def pow2 (e : Int) : ℚ :=
  if 0 ≤ e then ((2 ^ e.toNat : Nat) : ℚ) else 1 / ((2 ^ (-e).toNat : Nat) : ℚ)

/-- Exponent of the binade of `a > 0`, kept within `-1022 .. 1025`: the largest `e` in
that range with `2 ^ e ≤ a`, and `-1022` when there is none (subnormal range).  Found by
bisection over the offsets `0 .. 2047`. -/
def binade (a : ℚ) : Int :=
  let k : Nat := [1024, 512, 256, 128, 64, 32, 16, 8, 4, 2, 1].foldl
    (fun k s => if pow2 (-1022 + ((k + s : Nat) : Int)) ≤ a then k + s else k) 0
  (k : Int) - 1022

/-- The integer nearest to `a ≥ 0`, the even one of the two when `a` is halfway. -/
def roundHalfEven (a : ℚ) : Nat :=
  let n := a.num.natAbs
  let d := a.den
  let f := n / d
  let t := 2 * (n % d)
  if t < d then f else if d < t then f + 1 else if f % 2 = 0 then f else f + 1

/-- Rounding of a nonzero exact result `x` to binary64, to nearest with ties to even:
53 significant bits (the spacing in the binade `2 ^ e` is `2 ^ (e - 52)`), least exponent
`-1022` (subnormals below it), overflow to infinity when the rounded magnitude reaches
`2 ^ 1024`, underflow to a zero of the sign of `x`. -/
def Dbl.round (x : ℚ) : Dbl :=
  let a := |x|
  let e := binade a
  let ulp := pow2 (e - 52)
  let m := roundHalfEven (a / ulp)
  let r := (m : ℚ) * ulp
  if pow2 1024 ≤ r then Dbl.inf (decide (x < 0))
  else if m = 0 then Dbl.zero (decide (x < 0))
  else Dbl.fin (if x < 0 then -r else r)

/-- The double nearest to a rational (a literal of the source, or an `int` converted). -/
def Dbl.ofRat (x : ℚ) : Dbl := if x = 0 then Dbl.zero false else Dbl.round x

/-- Sign change `-x`. -/
def Dbl.neg : Dbl → Dbl
  | Dbl.zero b => Dbl.zero (!b)
  | Dbl.fin q => Dbl.fin (-q)
  | Dbl.inf b => Dbl.inf (!b)
  | Dbl.nan => Dbl.nan

/-- Addition `x + y`. -/
def Dbl.add : Dbl → Dbl → Dbl
  | Dbl.nan, _ => Dbl.nan
  | _, Dbl.nan => Dbl.nan
  | Dbl.inf a, Dbl.inf b => if a = b then Dbl.inf a else Dbl.nan
  | Dbl.inf a, _ => Dbl.inf a
  | _, Dbl.inf b => Dbl.inf b
  | Dbl.zero a, Dbl.zero b => Dbl.zero (a && b)
  | Dbl.zero _, Dbl.fin q => Dbl.fin q
  | Dbl.fin p, Dbl.zero _ => Dbl.fin p
  | Dbl.fin p, Dbl.fin q => if p + q = 0 then Dbl.zero false else Dbl.round (p + q)

/-- Subtraction `x - y`, which is `x + (-y)`. -/
def Dbl.sub (x y : Dbl) : Dbl := Dbl.add x (Dbl.neg y)

/-- Multiplication `x * y`. -/
def Dbl.mul : Dbl → Dbl → Dbl
  | Dbl.nan, _ => Dbl.nan
  | _, Dbl.nan => Dbl.nan
  | Dbl.inf _, Dbl.zero _ => Dbl.nan
  | Dbl.zero _, Dbl.inf _ => Dbl.nan
  | Dbl.inf a, y => Dbl.inf (xor a y.isNeg)
  | x, Dbl.inf b => Dbl.inf (xor x.isNeg b)
  | Dbl.zero a, y => Dbl.zero (xor a y.isNeg)
  | x, Dbl.zero b => Dbl.zero (xor x.isNeg b)
  | Dbl.fin p, Dbl.fin q => Dbl.round (p * q)

/-- Division `x / y`. -/
def Dbl.div : Dbl → Dbl → Dbl
  | Dbl.nan, _ => Dbl.nan
  | _, Dbl.nan => Dbl.nan
  | Dbl.inf _, Dbl.inf _ => Dbl.nan
  | Dbl.zero _, Dbl.zero _ => Dbl.nan
  | Dbl.inf a, y => Dbl.inf (xor a y.isNeg)
  | x, Dbl.inf b => Dbl.zero (xor x.isNeg b)
  | Dbl.zero a, y => Dbl.zero (xor a y.isNeg)
  | x, Dbl.zero b => Dbl.inf (xor x.isNeg b)
  | Dbl.fin p, Dbl.fin q => Dbl.round (p / q)

/-- The comparison `x < y`; false when either side is NaN. -/
def Dbl.lt : Dbl → Dbl → Bool
  | Dbl.nan, _ => false
  | _, Dbl.nan => false
  | Dbl.inf a, Dbl.inf b => a && !b
  | Dbl.inf a, _ => a
  | _, Dbl.inf b => !b
  | x, y => decide (x.val < y.val)

/-- The function `std::abs`. -/
def Dbl.abs : Dbl → Dbl
  | Dbl.zero _ => Dbl.zero false
  | Dbl.fin q => Dbl.fin |q|
  | Dbl.inf _ => Dbl.inf false
  | Dbl.nan => Dbl.nan

/-- The literal `0.0`. -/
def dzero : Dbl := Dbl.zero false

/-- The literal `1e-14`: the double nearest to `10 ^ (-14)`. -/
def tolD : Dbl := Dbl.ofRat (1 / 100000000000000)

/-- The test `std::abs(x) > 1e-14` of the scan of `polyrem`. -/
def aboveTol (x : Dbl) : Bool := Dbl.lt tolD (Dbl.abs x)

/-! ## The routines of `poly.h` in binary64

The same loops as above, with every arithmetic operation replaced by its binary64 one.
An `Eigen::VectorXd` is a `List Dbl`. -/

/-- The routine `polyval` in binary64: `result = result * x + p[i]`. -/
def polyval_dbl (p : List Dbl) (x : Dbl) : Dbl :=
  (List.range p.length).foldl
    (fun result i => Dbl.add (Dbl.mul result x) (p.getD i dzero)) dzero

/-- Body of the loop of `polyadd` in binary64. -/
def polyadd_body_dbl (p1 p2 : List Dbl) (n : Nat) (result : List Dbl) (i : Nat) : List Dbl :=
  let result :=
    if i < p1.length then
      result.set (n - i - 1)
        (Dbl.add (result.getD (n - i - 1) dzero) (p1.getD (p1.length - i - 1) dzero))
    else result
  if i < p2.length then
    result.set (n - i - 1)
      (Dbl.add (result.getD (n - i - 1) dzero) (p2.getD (p2.length - i - 1) dzero))
  else result

/-- The routine `polyadd` in binary64. -/
def polyadd_dbl (p1 p2 : List Dbl) : List Dbl :=
  let n := max p1.length p2.length
  (List.range n).foldl (polyadd_body_dbl p1 p2 n) (List.replicate n dzero)

/-- Body of the inner loop of `polymul` in binary64: `result[i] += p1[i - j] * p2[j]`,
the product rounded, then the sum rounded. -/
def polymul_body_dbl (p1 p2 : List Dbl) (i : Nat) (result : List Dbl) (j : Nat) : List Dbl :=
  if j ≤ i ∧ i - j < p1.length then
    result.set i
      (Dbl.add (result.getD i dzero) (Dbl.mul (p1.getD (i - j) dzero) (p2.getD j dzero)))
  else result

/-- The routine `polymul` in binary64. -/
def polymul_dbl (p1 p2 : List Dbl) : Option (List Dbl) :=
  let n1 : Int := p1.length
  let n2 : Int := p2.length
  let n : Int := n1 + n2 - 1
  if n < 0 then none
  else some ((List.range n.toNat).foldl
    (fun result i => (List.range p2.length).foldl (polymul_body_dbl p1 p2 i) result)
    (List.replicate n.toNat dzero))

/-- Checked write `v[i] = x`. -/
def vset_dbl (v : List Dbl) (i : Nat) (x : Dbl) : Option (List Dbl) :=
  if i < v.length then some (v.set i x) else none

/-- Inner loop of `polyrem` in binary64: `r[k+i] -= d * v[i]` for `i = 0, …, cnt - 1`. -/
def polyrem_inner_dbl (v : List Dbl) (d : Dbl) (k cnt : Nat) (r : List Dbl) :
    Option (List Dbl) :=
  (List.range cnt).foldlM
    (fun r i => do
      let ri ← r[k + i]?
      let vi ← v[i]?
      vset_dbl r (k + i) (Dbl.sub ri (Dbl.mul d vi)))
    r

/-- Outer loop of `polyrem` in binary64: `d = scale * r[k]`, `q[k] = d`, inner loop. -/
def polyrem_outer_dbl (v : List Dbl) (scale : Dbl) (cnt p : Nat) (q r : List Dbl) :
    Option (List Dbl × List Dbl) :=
  (List.range p).foldlM
    (fun (qr : List Dbl × List Dbl) k => do
      let rk ← qr.2[k]?
      let d := Dbl.mul scale rk
      let q ← vset_dbl qr.1 k d
      let r ← polyrem_inner_dbl v d k cnt qr.2
      pure (q, r))
    (q, r)

/-- Lines 43-53 of `polyrem` in binary64: `scale = 1.0 / v[0]`, then the elimination;
the quotient `q` and the raw remainder buffer `r`. -/
def polyrem_divide_dbl (u v : List Dbl) : Option (List Dbl × List Dbl) := do
  let m : Int := u.length - 1
  let n : Int := v.length - 1
  let p : Int := m - n + 1
  let v0 ← v[0]?
  let scale : Dbl := Dbl.div (Dbl.fin 1) v0
  polyrem_outer_dbl v scale (n + 1).toNat p.toNat (List.replicate (max p 1).toNat dzero) u

/-- The scan `for (strt = 0; strt < m; ++strt) if (abs(r[strt]) > 1e-14) break;` in
binary64, with `fuel = m - strt` iterations left. -/
def polyrem_strt_dbl (r : List Dbl) : Nat → Nat → Option Nat
  | 0, strt => some strt
  | fuel + 1, strt => do
    let x ← r[strt]?
    if aboveTol x then some strt else polyrem_strt_dbl r fuel (strt + 1)

/-- The slice `r.tail(cnt)`. -/
def vtail_dbl (r : List Dbl) (cnt : Int) : Option (List Dbl) :=
  if 0 ≤ cnt ∧ cnt ≤ r.length then some (r.drop (r.length - cnt.toNat)) else none

/-- The slice `d.head(cnt)`. -/
def vhead_dbl (d : List Dbl) (cnt : Int) : Option (List Dbl) :=
  if 0 ≤ cnt ∧ cnt ≤ d.length then some (d.take cnt.toNat) else none

/-- The routine `polyrem` in binary64. -/
def polyrem_dbl (u v : List Dbl) : Option (List Dbl) := do
  let m : Int := u.length - 1
  let qr ← polyrem_divide_dbl u v
  let strt ← polyrem_strt_dbl qr.2 m.toNat 0
  vtail_dbl qr.2 (m + 1 - strt)

/-- Body of the loop of `polyder` in binary64: `d[i] *= n - i`, the `int` difference
converted to `double`. -/
def polyder_body_dbl (n : Int) (d : List Dbl) (i : Nat) : List Dbl :=
  d.set i (Dbl.mul (d.getD i dzero) (Dbl.ofRat ((n - (i : Int) : Int) : ℚ)))

/-- The routine `polyder` in binary64. -/
def polyder_dbl (p : List Dbl) : Option (List Dbl) :=
  let n : Int := p.length - 1
  let d := (List.range n.toNat).foldl (polyder_body_dbl n) p
  vhead_dbl d n

/-- The statement `p1 *= -1.0` in binary64. -/
def vneg_dbl (p : List Dbl) : List Dbl := p.map (fun c => Dbl.mul c (Dbl.fin (-1)))

/-- Loop of `polysturm` in binary64, with the record of its calls of `polyrem`. -/
def polysturm_loop_traced_dbl : Nat → List Dbl → List Dbl → List (List Dbl) →
    List (List Dbl × List Dbl) → Option (List (List Dbl) × List (List Dbl × List Dbl))
  | 0, _, _, sturm, calls => some (sturm, calls)
  | fuel + 1, p0, p1, sturm, calls => do
    let tmp := p1
    let calls := calls ++ [(p0, p1)]
    let rem ← polyrem_dbl p0 p1
    let p1 := vneg_dbl rem
    let p0 := tmp
    let sturm := sturm ++ [p1]
    if p1.length = 1 then some (sturm, calls)
    else polysturm_loop_traced_dbl fuel p0 p1 sturm calls

/-- The routine `polysturm` in binary64, with the record of its calls of `polyrem`. -/
def polysturm_traced_dbl (p : List Dbl) :
    Option (List (List Dbl) × List (List Dbl × List Dbl)) := do
  let n : Int := p.length - 1
  let p0 := p
  let p1 ← polyder_dbl p0
  polysturm_loop_traced_dbl n.toNat p0 p1 [p0, p1] []

/-- A loop that reads `l[i]` for `i = 0, …, length - 1` is a fold over `l`. -/
theorem foldl_range_getD {α β : Type} (f : β → α → β) (dflt : α) (l : List α) (b : β) :
    (List.range l.length).foldl (fun acc i => f acc (l.getD i dflt)) b = l.foldl f b := by
  induction l using List.reverseRecOn with
  | nil => simp
  | append_singleton l c ih =>
    rw [List.length_append, List.length_singleton, List.range_succ, List.foldl_append,
      List.foldl_append]
    have h : (List.range l.length).foldl (fun acc i => f acc ((l ++ [c]).getD i dflt)) b
        = (List.range l.length).foldl (fun acc i => f acc (l.getD i dflt)) b := by
      apply List.foldl_ext
      intro acc i hi
      have hi2 : i < l.length := List.mem_range.mp hi
      simp [List.getD_eq_getElem?_getD, List.getElem?_append_left hi2]
    rw [h, ih]
    simp [List.getD_eq_getElem?_getD]

/-- `polyval` as a fold over the coefficients. -/
theorem polyval_eq_foldl {R : Type} [CommRing R] (p : List R) (x : R) :
    polyval p x = p.foldl (fun result c => result * x + c) 0 := by
  unfold polyval
  exact foldl_range_getD (fun result c => result * x + c) 0 p 0

/-- One more Horner step for one more trailing coefficient. -/
theorem polyval_append_singleton {R : Type} [CommRing R] (p : List R) (c x : R) :
    polyval (p ++ [c]) x = polyval p x * x + c := by
  simp [polyval_eq_foldl]

/-- Closed form of `polyval`: the sum of `p[i] * x ^ (n - i)`. -/
theorem polyval_eq_sum {R : Type} [CommRing R] (p : List R) (x : R) :
    polyval p x = ∑ i in Finset.range p.length, p.getD i 0 * x ^ (p.length - 1 - i) := by
  induction p using List.reverseRecOn with
  | nil => simp [polyval]
  | append_singleton l c ih =>
    rw [polyval_append_singleton, ih, List.length_append, List.length_singleton,
      Finset.sum_range_succ, Finset.sum_mul]
    congr 1
    · apply Finset.sum_congr rfl
      intro i hi
      have hi2 : i < l.length := Finset.mem_range.mp hi
      have e : l.length + 1 - 1 - i = (l.length - 1 - i) + 1 := by omega
      rw [e, pow_succ]
      simp [List.getD_eq_getElem?_getD, List.getElem?_append_left hi2]
      ring
    · simp [List.getD_eq_getElem?_getD]

/-- Reading a vector after one write. -/
theorem getD_set (l : List ℚ) (i j : Nat) (a : ℚ) :
    (l.set i a).getD j 0 = if i = j ∧ i < l.length then a else l.getD j 0 := by
  simp only [List.getD_eq_getElem?_getD, List.getElem?_set]
  by_cases h : i = j
  · subst h
    by_cases h2 : i < l.length
    · simp [h2]
    · simp [h2, List.getElem?_eq_none (Nat.le_of_not_lt h2)]
  · simp [h]

/-- Every entry of a zero vector is zero. -/
theorem getD_replicate_zero (n j : Nat) : (List.replicate n (0 : ℚ)).getD j 0 = 0 := by
  simp only [List.getD_eq_getElem?_getD, List.getElem?_replicate]
  split <;> rfl

/-- A pass of the loop of `polyadd` keeps the length of `result`. -/
theorem polyadd_body_length (p1 p2 : List ℚ) (n : Nat) (result : List ℚ) (i : Nat) :
    (polyadd_body p1 p2 n result i).length = result.length := by
  unfold polyadd_body
  split <;> split <;> simp

/-- A pass of the loop of `polyadd` adds both coefficients of degree `i` at position `n - i - 1`. -/
theorem polyadd_body_getD (p1 p2 : List ℚ) (n : Nat) (result : List ℚ) (i j : Nat)
    (hn : result.length = n) (hi : i < n) :
    (polyadd_body p1 p2 n result i).getD j 0 =
      if j = n - i - 1 then result.getD j 0 + coeffEnd p1 i + coeffEnd p2 i
      else result.getD j 0 := by
  have hpos : n - i - 1 < result.length := by omega
  unfold polyadd_body coeffEnd
  by_cases h1 : i < p1.length <;> by_cases h2 : i < p2.length <;>
    by_cases hj : j = n - i - 1 <;>
    simp [h1, h2, hj, getD_set, hpos, Nat.sub_right_comm, eq_comm]

/-- Invariant of the loop of `polyadd` after `t` passes. -/
theorem polyadd_loop_inv (p1 p2 : List ℚ) (n t : Nat) (ht : t ≤ n) :
    ((List.range t).foldl (polyadd_body p1 p2 n) (List.replicate n 0)).length = n ∧
    ∀ j, ((List.range t).foldl (polyadd_body p1 p2 n) (List.replicate n 0)).getD j 0 =
      if j < n ∧ n - 1 - j < t then coeffEnd p1 (n - 1 - j) + coeffEnd p2 (n - 1 - j) else 0 := by
  induction t with
  | zero => simp [getD_replicate_zero]
  | succ t ih =>
    obtain ⟨hlen, hget⟩ := ih (by omega)
    rw [List.range_succ, List.foldl_append, List.foldl_cons, List.foldl_nil]
    refine ⟨by rw [polyadd_body_length, hlen], fun j => ?_⟩
    rw [polyadd_body_getD p1 p2 n _ t j hlen (by omega), hget]
    by_cases hj : j = n - t - 1
    · have e : n - 1 - j = t := by omega
      have c1 : j < n ∧ n - 1 - j < t + 1 := by omega
      have c2 : ¬ (j < n ∧ n - 1 - j < t) := by omega
      simp only [hj, if_true] at *
      rw [if_neg (by omega), if_pos (by omega)]
      have e2 : n - 1 - (n - t - 1) = t := by omega
      rw [e2]; ring
    · rw [if_neg hj]
      by_cases c : j < n ∧ n - 1 - j < t
      · rw [if_pos c, if_pos (by omega)]
      · rw [if_neg c, if_neg (by omega)]

/-- Length of `polyadd`. -/
theorem polyadd_length (p1 p2 : List ℚ) :
    (polyadd p1 p2).length = max p1.length p2.length := by
  exact (polyadd_loop_inv p1 p2 _ _ le_rfl).1

/-- No coefficient beyond the leading one. -/
theorem coeffEnd_of_le (p : List ℚ) (k : Nat) (h : p.length ≤ k) : coeffEnd p k = 0 := by
  unfold coeffEnd
  rw [if_neg (by omega)]

/-- Entries of `polyadd`. -/
theorem polyadd_getD (p1 p2 : List ℚ) (j : Nat) (hj : j < max p1.length p2.length) :
    (polyadd p1 p2).getD j 0 =
      coeffEnd p1 (max p1.length p2.length - 1 - j) + coeffEnd p2 (max p1.length p2.length - 1 - j) := by
  rw [polyadd, (polyadd_loop_inv p1 p2 _ _ le_rfl).2 j, if_pos (by omega)]

/-- Coefficients of `polyadd`, degree by degree. -/
theorem coeffEnd_polyadd (p1 p2 : List ℚ) (k : Nat) :
    coeffEnd (polyadd p1 p2) k = coeffEnd p1 k + coeffEnd p2 k := by
  by_cases hk : k < max p1.length p2.length
  · have h : coeffEnd (polyadd p1 p2) k = (polyadd p1 p2).getD ((polyadd p1 p2).length - 1 - k) 0 := by
      unfold coeffEnd; rw [if_pos (by rw [polyadd_length]; exact hk)]
    rw [h, polyadd_length, polyadd_getD p1 p2 _ (by omega)]
    have e : max p1.length p2.length - 1 - (max p1.length p2.length - 1 - k) = k := by omega
    rw [e]
  · have h1 : p1.length ≤ k := by omega
    have h2 : p2.length ≤ k := by omega
    rw [coeffEnd_of_le _ _ h1, coeffEnd_of_le _ _ h2, coeffEnd_of_le _ _ (by rw [polyadd_length]; omega)]
    simp

/-- Two coefficient vectors of the same length with the same coefficients are equal. -/
theorem ext_coeffEnd (a b : List ℚ) (hlen : a.length = b.length)
    (h : ∀ k, coeffEnd a k = coeffEnd b k) : a = b := by
  apply List.ext_getElem hlen
  intro i h1 h2
  have := h (a.length - 1 - i)
  unfold coeffEnd at this
  rw [if_pos (by omega), if_pos (by omega)] at this
  have e1 : a.length - 1 - (a.length - 1 - i) = i := by omega
  have e2 : b.length - 1 - (a.length - 1 - i) = i := by omega
  rw [e1, e2] at this
  simpa [List.getD_eq_getElem?_getD, List.getElem?_eq_getElem h1, List.getElem?_eq_getElem h2] using this

/-- `polyadd` commutes. -/
theorem polyadd_comm (p1 p2 : List ℚ) : polyadd p1 p2 = polyadd p2 p1 := by
  apply ext_coeffEnd
  · rw [polyadd_length, polyadd_length, max_comm]
  · intro k; rw [coeffEnd_polyadd, coeffEnd_polyadd, add_comm]

/-- `polyadd` is associative. -/
theorem polyadd_assoc (p1 p2 p3 : List ℚ) :
    polyadd (polyadd p1 p2) p3 = polyadd p1 (polyadd p2 p3) := by
  apply ext_coeffEnd
  · simp only [polyadd_length, max_assoc]
  · intro k; simp only [coeffEnd_polyadd, add_assoc]

/-- A pass of the inner loop of `polymul` keeps the length of `result`. -/
theorem polymul_body_length (p1 p2 : List ℚ) (i : Nat) (result : List ℚ) (j : Nat) :
    (polymul_body p1 p2 i result j).length = result.length := by
  unfold polymul_body
  split <;> simp

/-- A pass of the inner loop of `polymul` adds `polymul_term` to `result[i]`. -/
theorem polymul_body_getD (p1 p2 : List ℚ) (i : Nat) (result : List ℚ) (j x : Nat)
    (hi : i < result.length) :
    (polymul_body p1 p2 i result j).getD x 0 =
      if x = i then result.getD i 0 + polymul_term p1 p2 i j else result.getD x 0 := by
  unfold polymul_body polymul_term
  by_cases c : j ≤ i ∧ i - j < p1.length
  · rw [if_pos c, if_pos c, getD_set]
    by_cases hx : x = i
    · subst hx
      rw [if_pos ⟨rfl, hi⟩, if_pos rfl]
    · rw [if_neg (fun h => hx h.1.symm), if_neg hx]
  · rw [if_neg c, if_neg c, add_zero]
    split
    · next h => rw [h]
    · rfl

/-- Invariant of the inner loop of `polymul` after `t` passes. -/
theorem polymul_inner_inv (p1 p2 : List ℚ) (i : Nat) (result : List ℚ) (hi : i < result.length)
    (t : Nat) :
    ((List.range t).foldl (polymul_body p1 p2 i) result).length = result.length ∧
    ∀ x, ((List.range t).foldl (polymul_body p1 p2 i) result).getD x 0 =
      if x = i then result.getD i 0 + ∑ j in Finset.range t, polymul_term p1 p2 i j
      else result.getD x 0 := by
  induction t with
  | zero =>
    refine ⟨by simp, fun x => ?_⟩
    by_cases hx : x = i <;> simp [hx]
  | succ t ih =>
    obtain ⟨hlen, hget⟩ := ih
    rw [List.range_succ, List.foldl_append, List.foldl_cons, List.foldl_nil]
    refine ⟨by rw [polymul_body_length, hlen], fun x => ?_⟩
    rw [polymul_body_getD _ _ _ _ _ _ (by rw [hlen]; exact hi), hget, hget, if_pos rfl,
      Finset.sum_range_succ]
    by_cases hx : x = i
    · rw [if_pos hx, if_pos hx]; ring
    · simp only [if_neg hx]

/-- Invariant of the outer loop of `polymul` after `t` passes. -/
theorem polymul_loop_inv (p1 p2 : List ℚ) (n t : Nat) (ht : t ≤ n) :
    ((List.range t).foldl
      (fun result i => (List.range p2.length).foldl (polymul_body p1 p2 i) result)
      (List.replicate n 0)).length = n ∧
    ∀ x, ((List.range t).foldl
      (fun result i => (List.range p2.length).foldl (polymul_body p1 p2 i) result)
      (List.replicate n 0)).getD x 0 =
      if x < t then ∑ j in Finset.range p2.length, polymul_term p1 p2 x j else 0 := by
  induction t with
  | zero => simp [getD_replicate_zero]
  | succ t ih =>
    obtain ⟨hlen, hget⟩ := ih (by omega)
    rw [List.range_succ, List.foldl_append, List.foldl_cons, List.foldl_nil]
    obtain ⟨h1, h2⟩ := polymul_inner_inv p1 p2 t _ (by rw [hlen]; omega) p2.length
    refine ⟨by rw [h1, hlen], fun x => ?_⟩
    rw [h2, hget, hget]
    by_cases hx : x = t
    · subst hx
      simp
    · rw [if_neg hx]
      by_cases c : x < t
      · rw [if_pos c, if_pos (by omega)]
      · rw [if_neg c, if_neg (by omega)]

/-- `polymul` returns whenever one operand is non-empty. -/
theorem polymul_eq_some (p1 p2 : List ℚ) (h : 1 ≤ p1.length + p2.length) :
    polymul p1 p2 =
      some (polymul_loop p1 p2 (p1.length + p2.length - 1)
        (List.replicate (p1.length + p2.length - 1) 0)) := by
  unfold polymul
  have e : ((p1.length : Int) + (p2.length : Int) - 1).toNat = p1.length + p2.length - 1 := by
    omega
  simp only [e]
  rw [if_neg (by omega)]

/-- Length of the result of the double loop of `polymul`. -/
theorem polymul_loop_length (p1 p2 : List ℚ) (n : Nat) :
    (polymul_loop p1 p2 n (List.replicate n 0)).length = n :=
  (polymul_loop_inv p1 p2 n n le_rfl).1

/-- Entries of the result of the double loop of `polymul`. -/
theorem polymul_loop_getD (p1 p2 : List ℚ) (n x : Nat) :
    (polymul_loop p1 p2 n (List.replicate n 0)).getD x 0 =
      if x < n then ∑ j in Finset.range p2.length, polymul_term p1 p2 x j else 0 :=
  (polymul_loop_inv p1 p2 n n le_rfl).2 x

/-- Invariant of the loop of `polyder` after `t` passes. -/
theorem polyder_loop_inv (n : Int) (p : List ℚ) (t : Nat) (ht : t ≤ p.length) :
    ((List.range t).foldl (polyder_body n) p).length = p.length ∧
    ∀ x, ((List.range t).foldl (polyder_body n) p).getD x 0 =
      if x < t then p.getD x 0 * ((n - (x : Int) : Int) : ℚ) else p.getD x 0 := by
  induction t with
  | zero => simp
  | succ t ih =>
    obtain ⟨hlen, hget⟩ := ih (by omega)
    rw [List.range_succ, List.foldl_append, List.foldl_cons, List.foldl_nil]
    generalize (List.range t).foldl (polyder_body n) p = acc at hlen hget ⊢
    unfold polyder_body
    refine ⟨by rw [List.length_set, hlen], fun x => ?_⟩
    rw [getD_set, hget, hget, if_neg (lt_irrefl t)]
    by_cases hx : t = x
    · subst hx
      rw [if_pos ⟨rfl, by rw [hlen]; omega⟩, if_pos (by omega)]
    · rw [if_neg (fun h => hx h.1)]
      by_cases c : x < t
      · rw [if_pos c, if_pos (by omega)]
      · rw [if_neg c, if_neg (by omega)]

/-- Reading a prefix. -/
theorem getD_take (l : List ℚ) (n i : Nat) (h : i < n) : (l.take n).getD i 0 = l.getD i 0 := by
  simp [List.getD_eq_getElem?_getD, List.getElem?_take, h]

/-- Closed form of `polyder` on a non-empty vector. -/
theorem polyder_spec (p : List ℚ) (h : 1 ≤ p.length) :
    ∃ d, polyder p = some d ∧ d.length = p.length - 1 ∧
      ∀ i, i < p.length - 1 →
        d.getD i 0 = p.getD i 0 * (((p.length - 1 : Nat) : ℚ) - (i : ℚ)) := by
  have e : ((p.length : Int) - 1).toNat = p.length - 1 := by omega
  obtain ⟨hlen, hget⟩ := polyder_loop_inv ((p.length : Int) - 1) p (p.length - 1) (by omega)
  refine ⟨((List.range (p.length - 1)).foldl (polyder_body ((p.length : Int) - 1)) p).take
    (p.length - 1), ?_, ?_, ?_⟩
  · unfold polyder vhead
    simp only [e]
    rw [if_pos]
    rw [hlen]
    omega
  · rw [List.length_take, hlen]; omega
  · intro i hi
    rw [getD_take _ _ _ hi, hget, if_pos hi]
    congr 1
    have : ((p.length : Int) - 1 - (i : Int)) = (((p.length - 1 : Nat) : Int) - (i : Int)) := by
      omega
    rw [this]
    push_cast
    ring

/-- Coefficients of the denoted polynomial. -/
theorem coeff_toPoly (p : List ℚ) (e : Nat) : (toPoly p).coeff e = coeffEnd p e := by
  unfold toPoly
  rw [Polynomial.finset_sum_coeff]
  simp only [Polynomial.coeff_monomial]
  rw [Finset.sum_ite_eq' (Finset.range p.length) e]
  by_cases h : e < p.length
  · simp [h]
  · simp [h, coeffEnd_of_le p e (by omega)]

/-- `polyadd` denotes the sum. -/
theorem toPoly_polyadd (p1 p2 : List ℚ) : toPoly (polyadd p1 p2) = toPoly p1 + toPoly p2 := by
  ext e
  rw [Polynomial.coeff_add, coeff_toPoly, coeff_toPoly, coeff_toPoly, coeffEnd_polyadd]

/-- A zero vector denotes the zero polynomial. -/
theorem toPoly_replicate_zero (n : Nat) : toPoly (List.replicate n 0) = 0 := by
  ext e
  rw [coeff_toPoly, Polynomial.coeff_zero]
  unfold coeffEnd
  split
  · exact getD_replicate_zero _ _
  · rfl

/-- A sum over a range may be extended by vanishing terms. -/
theorem sum_range_extend (f : Nat → ℚ) (n N : Nat) (h : n ≤ N) (hf : ∀ k, n ≤ k → f k = 0) :
    ∑ k in Finset.range N, f k = ∑ k in Finset.range n, f k := by
  symm
  apply Finset.sum_subset (Finset.range_mono h)
  intro x _ hx
  exact hf x (by simpa using hx)

/-- An entry is the coefficient of the matching degree. -/
theorem getD_eq_coeffEnd (p : List ℚ) (i : Nat) (h : i < p.length) :
    p.getD i 0 = coeffEnd p (p.length - 1 - i) := by
  unfold coeffEnd
  rw [if_pos (by omega)]
  congr 1
  omega

/-- Coefficients of the result of `polymul`: the convolution of the coefficients of the operands. -/
theorem coeffEnd_polymul_loop (p1 p2 : List ℚ) (h1 : 1 ≤ p1.length) (h2 : 1 ≤ p2.length)
    (e : Nat) :
    coeffEnd (polymul_loop p1 p2 (p1.length + p2.length - 1)
        (List.replicate (p1.length + p2.length - 1) 0)) e =
      ∑ b in Finset.range (e + 1), coeffEnd p2 b * coeffEnd p1 (e - b) := by
  set n := p1.length + p2.length - 1 with hn
  have hR : ∑ b in Finset.range (e + 1), coeffEnd p2 b * coeffEnd p1 (e - b)
      = ∑ b in Finset.range (max p2.length (e + 1)),
          (if b ≤ e then coeffEnd p2 b * coeffEnd p1 (e - b) else 0) := by
    rw [sum_range_extend _ (e + 1) _ (le_max_right _ _)]
    · apply Finset.sum_congr rfl
      intro b hb
      rw [if_pos (by have := Finset.mem_range.mp hb; omega)]
    · intro k hk
      rw [if_neg (by omega)]
  have hL : ∑ b in Finset.range p2.length,
        (if b ≤ e then coeffEnd p2 b * coeffEnd p1 (e - b) else 0)
      = ∑ b in Finset.range (max p2.length (e + 1)),
          (if b ≤ e then coeffEnd p2 b * coeffEnd p1 (e - b) else 0) := by
    rw [sum_range_extend _ p2.length _ (le_max_left _ _)]
    intro k hk
    rw [coeffEnd_of_le p2 k hk]
    simp
  rw [hR, ← hL]
  unfold coeffEnd
  rw [polymul_loop_length, polymul_loop_getD]
  by_cases he : e < n
  · rw [if_pos he, if_pos (by omega), ← Finset.sum_range_reflect]
    apply Finset.sum_congr rfl
    intro b hb
    have hb2 : b < p2.length := Finset.mem_range.mp hb
    unfold polymul_term
    rw [if_pos hb2]
    by_cases c : b ≤ e ∧ e - b < p1.length
    · rw [if_pos (by omega), if_pos c.1, if_pos c.2]
      have e1 : n - 1 - e - (p2.length - 1 - b) = p1.length - 1 - (e - b) := by omega
      rw [e1]
      ring
    · by_cases c1 : b ≤ e
      · have c2 : ¬ e - b < p1.length := fun h => c ⟨c1, h⟩
        rw [if_neg (by omega), if_pos c1, if_neg c2, mul_zero]
      · rw [if_neg (by omega), if_neg c1]
  · rw [if_neg he]
    symm
    apply Finset.sum_eq_zero
    intro b hb
    have hb2 : b < p2.length := Finset.mem_range.mp hb
    by_cases c1 : b ≤ e
    · rw [if_pos c1, if_pos hb2, if_neg (by omega), mul_zero]
    · rw [if_neg c1]

/-- `polymul` denotes the product. -/
theorem toPoly_polymul (p1 p2 r : List ℚ) (h1 : 1 ≤ p1.length) (h2 : 1 ≤ p2.length)
    (h : polymul p1 p2 = some r) : toPoly r = toPoly p1 * toPoly p2 := by
  rw [polymul_eq_some p1 p2 (by omega)] at h
  cases h
  ext e
  rw [coeff_toPoly, coeffEnd_polymul_loop p1 p2 h1 h2, mul_comm, Polynomial.coeff_mul,
    Finset.Nat.sum_antidiagonal_eq_sum_range_succ
      (fun a b => (toPoly p2).coeff a * (toPoly p1).coeff b)]
  simp only [coeff_toPoly]

/-- A checked read inside the vector succeeds. -/
theorem getElem?_eq_some_getD (l : List ℚ) (i : Nat) (h : i < l.length) :
    l[i]? = some (l.getD i 0) := by
  simp [List.getD_eq_getElem?_getD, List.getElem?_eq_getElem h]

/-- Closed form of the inner loop of `polyrem`. -/
theorem polyrem_inner_spec (v : List ℚ) (d : ℚ) (k : Nat) (r : List ℚ) (t : Nat)
    (ht : t ≤ v.length) (hk : k + t ≤ r.length) :
    ∃ r1, polyrem_inner v d k t r = some r1 ∧ r1.length = r.length ∧
      ∀ x, r1.getD x 0 =
        if k ≤ x ∧ x < k + t then r.getD x 0 - d * v.getD (x - k) 0 else r.getD x 0 := by
  induction t with
  | zero =>
    refine ⟨r, by simp [polyrem_inner], rfl, fun x => ?_⟩
    rw [if_neg (by omega)]
  | succ t ih =>
    obtain ⟨r1, h1, hlen, hget⟩ := ih (by omega) (by omega)
    unfold polyrem_inner at h1 ⊢
    rw [List.range_succ, List.foldlM_append, h1]
    have hr : r1[k + t]? = some (r1.getD (k + t) 0) :=
      getElem?_eq_some_getD _ _ (by omega)
    have hv : v[t]? = some (v.getD t 0) := getElem?_eq_some_getD _ _ (by omega)
    refine ⟨r1.set (k + t) (r1.getD (k + t) 0 - d * v.getD t 0), ?_, ?_, ?_⟩
    · simp only [List.foldlM_cons, List.foldlM_nil, hr, hv, vset, Option.some_bind,
        Option.bind_eq_bind, if_pos (show k + t < r1.length by omega)]
      rfl
    · rw [List.length_set, hlen]
    · intro x
      rw [getD_set, hget, hget]
      by_cases hx : k + t = x
      · subst hx
        rw [if_pos ⟨rfl, by omega⟩, if_neg (by omega), if_pos (by omega)]
        simp
      · rw [if_neg (fun h => hx h.1)]
        by_cases c : k ≤ x ∧ x < k + t
        · rw [if_pos c, if_pos (by omega)]
        · rw [if_neg c, if_neg (by omega)]

/-- Coefficients after one write. -/
theorem coeffEnd_set (l : List ℚ) (i : Nat) (a : ℚ) (h : i < l.length) (e : Nat) :
    coeffEnd (l.set i a) e = if e = l.length - 1 - i then a else coeffEnd l e := by
  unfold coeffEnd
  rw [List.length_set, getD_set]
  by_cases he : e < l.length
  · rw [if_pos he, if_pos he]
    by_cases c : e = l.length - 1 - i
    · rw [if_pos c, if_pos ⟨by omega, h⟩]
    · rw [if_neg c, if_neg (by omega)]
  · rw [if_neg he, if_neg he, if_neg (by omega)]

/-- Writing `a` over a zero entry adds the monomial of that position. -/
theorem toPoly_set (l : List ℚ) (i : Nat) (a : ℚ) (h : i < l.length) (h0 : l.getD i 0 = 0) :
    toPoly (l.set i a) = toPoly l + Polynomial.C a * Polynomial.X ^ (l.length - 1 - i) := by
  ext e
  rw [coeff_toPoly, Polynomial.coeff_add, coeff_toPoly, coeffEnd_set l i a h,
    Polynomial.coeff_C_mul_X_pow]
  by_cases c : e = l.length - 1 - i
  · rw [if_pos c, if_pos c]
    have : coeffEnd l e = 0 := by
      unfold coeffEnd
      rw [if_pos (by omega)]
      rw [← h0]; congr 1; omega
    rw [this, zero_add]
  · rw [if_neg c, if_neg c, add_zero]

/-- One elimination step subtracts `d * x^(len - k - n1) * v` from the buffer. -/
theorem toPoly_inner (v : List ℚ) (d : ℚ) (k : Nat) (r r1 : List ℚ)
    (hk : k + v.length ≤ r.length) (hlen : r1.length = r.length)
    (hget : ∀ x, r1.getD x 0 =
        if k ≤ x ∧ x < k + v.length then r.getD x 0 - d * v.getD (x - k) 0 else r.getD x 0) :
    toPoly r1 =
      toPoly r - Polynomial.C d * Polynomial.X ^ (r.length - k - v.length) * toPoly v := by
  ext e
  rw [Polynomial.coeff_sub, coeff_toPoly, coeff_toPoly, mul_assoc, Polynomial.coeff_C_mul,
    Polynomial.coeff_X_pow_mul', coeff_toPoly]
  unfold coeffEnd
  rw [hlen, hget]
  by_cases he : e < r.length
  · simp only [if_pos he]
    by_cases c : r.length - k - v.length ≤ e
    · simp only [if_pos c]
      by_cases c2 : e - (r.length - k - v.length) < v.length
      · have c3 : k ≤ r.length - 1 - e ∧ r.length - 1 - e < k + v.length := by omega
        have e1 : r.length - 1 - e - k = v.length - 1 - (e - (r.length - k - v.length)) := by
          omega
        simp only [if_pos c2, if_pos c3, e1]
      · have c3 : ¬ (k ≤ r.length - 1 - e ∧ r.length - 1 - e < k + v.length) := by omega
        simp only [if_neg c2, if_neg c3, mul_zero, sub_zero]
    · have c3 : ¬ (k ≤ r.length - 1 - e ∧ r.length - 1 - e < k + v.length) := by omega
      simp only [if_neg c, if_neg c3, mul_zero, sub_zero]
  · have c : r.length - k - v.length ≤ e := by omega
    have c2 : ¬ e - (r.length - k - v.length) < v.length := by omega
    simp only [if_neg he, if_pos c, if_neg c2, mul_zero, sub_zero]

/-- Invariant of the elimination loop of `polyrem` after `t` passes: the quotient built so far
times `v`, plus the buffer, is still `u`; and the first `t` entries of the buffer are zero
when `scale` is the reciprocal of `v[0]`. -/
theorem polyrem_outer_inv (u v : List ℚ) (scale : ℚ) (p : Nat) (hv : 1 ≤ v.length)
    (hp : p + v.length = u.length + 1) (t : Nat) (ht : t ≤ p) :
    ∃ q r, polyrem_outer v scale v.length t (List.replicate p 0) u = some (q, r) ∧
      q.length = p ∧ r.length = u.length ∧ (∀ j, t ≤ j → q.getD j 0 = 0) ∧
      toPoly q * toPoly v + toPoly r = toPoly u ∧
      (scale * v.getD 0 0 = 1 → ∀ j, j < t → r.getD j 0 = 0) := by
  induction t with
  | zero =>
    refine ⟨List.replicate p 0, u, by simp [polyrem_outer], by simp, rfl,
      fun j _ => getD_replicate_zero _ _, ?_, fun _ j hj => absurd hj (Nat.not_lt_zero j)⟩
    rw [toPoly_replicate_zero, zero_mul, zero_add]
  | succ t ih =>
    obtain ⟨q, r, hrun, hq, hr, hq0, hinv, hr0⟩ := ih (by omega)
    obtain ⟨r1, hin, hlen1, hget1⟩ :=
      polyrem_inner_spec v (scale * r.getD t 0) t r v.length le_rfl (by omega)
    have hrt : r[t]? = some (r.getD t 0) := getElem?_eq_some_getD _ _ (by omega)
    refine ⟨q.set t (scale * r.getD t 0), r1, ?_, ?_, ?_, ?_, ?_, ?_⟩
    · unfold polyrem_outer at hrun ⊢
      rw [List.range_succ, List.foldlM_append, hrun]
      simp only [List.foldlM_cons, List.foldlM_nil, Option.some_bind, Option.bind_eq_bind,
        hrt, vset, if_pos (show t < q.length by omega), hin]
      rfl
    · rw [List.length_set, hq]
    · rw [hlen1, hr]
    · intro j hj
      rw [getD_set, if_neg (by omega)]
      exact hq0 j (by omega)
    · rw [toPoly_set q t _ (by omega) (hq0 t le_rfl),
        toPoly_inner v _ t r r1 (by omega) hlen1 hget1, ← hinv]
      have e : r.length - t - v.length = q.length - 1 - t := by omega
      rw [e]
      ring
    · intro hs j hj
      rw [hget1]
      by_cases c : j = t
      · subst c
        rw [if_pos (by omega), Nat.sub_self]
        have : r.getD j 0 - scale * r.getD j 0 * v.getD 0 0
            = r.getD j 0 * (1 - scale * v.getD 0 0) := by ring
        rw [this, hs, sub_self, mul_zero]
      · rw [if_neg (by omega)]
        exact hr0 hs j (by omega)

/-- Result of lines 43-53 of `polyrem` for a non-empty divisor. -/
theorem polyrem_divide_spec (u v : List ℚ) (hv : 1 ≤ v.length) :
    ∃ q r, polyrem_divide u v = some (q, r) ∧
      q.length = max (u.length + 1 - v.length) 1 ∧ r.length = u.length ∧
      toPoly q * toPoly v + toPoly r = toPoly u ∧
      (v.getD 0 0 ≠ 0 → ∀ j, j < u.length + 1 - v.length → r.getD j 0 = 0) := by
  have hv0 : v[0]? = some (v.getD 0 0) := getElem?_eq_some_getD _ _ (by omega)
  have en : (((v.length : Int) - 1) + 1).toNat = v.length := by omega
  have ep : (((u.length : Int) - 1) - ((v.length : Int) - 1) + 1).toNat
      = u.length + 1 - v.length := by omega
  by_cases c : v.length ≤ u.length
  · have eq : (max (((u.length : Int) - 1) - ((v.length : Int) - 1) + 1) 1).toNat
        = u.length + 1 - v.length := by omega
    obtain ⟨q, r, hrun, hq, hr, _, hinv, hr0⟩ :=
      polyrem_outer_inv u v (1 / v.getD 0 0) (u.length + 1 - v.length) hv (by omega)
        (u.length + 1 - v.length) le_rfl
    refine ⟨q, r, ?_, ?_, hr, hinv, ?_⟩
    · unfold polyrem_divide
      simp only [hv0, Option.some_bind, Option.bind_eq_bind, en, ep, eq]
      exact hrun
    · rw [hq]; omega
    · intro h0 j hj
      exact hr0 (one_div_mul_cancel h0) j hj
  · have eq : (max (((u.length : Int) - 1) - ((v.length : Int) - 1) + 1) 1).toNat = 1 := by
      omega
    have ep0 : u.length + 1 - v.length = 0 := by omega
    refine ⟨[0], u, ?_, ?_, rfl, ?_, ?_⟩
    · unfold polyrem_divide
      simp only [hv0, Option.some_bind, Option.bind_eq_bind, en, ep, eq, ep0]
      rfl
    · simp [ep0]
    · have : toPoly [0] = 0 := toPoly_replicate_zero 1
      rw [this, zero_mul, zero_add]
    · intro _ j hj
      omega

/-- The scan of `polyrem` stops at the first entry above the threshold, or at `m`. -/
theorem polyrem_strt_spec (r : List ℚ) (fuel strt : Nat) (h : strt + fuel ≤ r.length) :
    ∃ s, polyrem_strt r fuel strt = some s ∧ strt ≤ s ∧ s ≤ strt + fuel ∧
      (∀ j, strt ≤ j → j < s → |r.getD j 0| ≤ tol) ∧
      (s < strt + fuel → tol < |r.getD s 0|) := by
  induction fuel generalizing strt with
  | zero =>
    exact ⟨strt, rfl, le_rfl, le_rfl, fun j h1 h2 => by omega, fun h => by omega⟩
  | succ fuel ih =>
    have hrs : r[strt]? = some (r.getD strt 0) := getElem?_eq_some_getD _ _ (by omega)
    by_cases c : |r.getD strt 0| > tol
    · refine ⟨strt, ?_, le_rfl, by omega, fun j h1 h2 => by omega, fun _ => c⟩
      simp only [polyrem_strt, hrs, Option.some_bind, Option.bind_eq_bind, if_pos c]
    · obtain ⟨s, hs, h1, h2, h3, h4⟩ := ih (strt + 1) (by omega)
      refine ⟨s, ?_, by omega, by omega, ?_, fun hlt => h4 (by omega)⟩
      · simp only [polyrem_strt, hrs, Option.some_bind, Option.bind_eq_bind, if_neg c]
        exact hs
      · intro j hj1 hj2
        by_cases e : j = strt
        · subst e; exact not_lt.mp c
        · exact h3 j (by omega) hj2

/-- How `polyrem` is assembled from the elimination, the scan and the slice. -/
theorem polyrem_spec (u v : List ℚ) (hv : 1 ≤ v.length) :
    ∃ q r s, polyrem_divide u v = some (q, r) ∧ polyrem u v = some (r.drop s) ∧
      q.length = max (u.length + 1 - v.length) 1 ∧ r.length = u.length ∧
      toPoly q * toPoly v + toPoly r = toPoly u ∧
      (v.getD 0 0 ≠ 0 → ∀ j, j < u.length + 1 - v.length → r.getD j 0 = 0) ∧
      s ≤ u.length - 1 ∧ (∀ j, j < s → |r.getD j 0| ≤ tol) ∧
      (s < u.length - 1 → tol < |r.getD s 0|) := by
  obtain ⟨q, r, hdiv, hq, hr, hinv, hr0⟩ := polyrem_divide_spec u v hv
  have em : ((u.length : Int) - 1).toNat = u.length - 1 := by omega
  obtain ⟨s, hs, _, h2, h3, h4⟩ := polyrem_strt_spec r (u.length - 1) 0 (by omega)
  refine ⟨q, r, s, hdiv, ?_, hq, hr, hinv, hr0, by omega, fun j hj => h3 j (Nat.zero_le j) hj,
    fun h => h4 (by omega)⟩
  unfold polyrem
  simp only [hdiv, Option.some_bind, Option.bind_eq_bind, em, hs, vtail]
  rw [if_pos (by omega)]
  congr 2
  omega

/-- Coefficients of a suffix. -/
theorem coeffEnd_drop (r : List ℚ) (s k : Nat) (hs : s ≤ r.length) :
    coeffEnd (r.drop s) k = if k < r.length - s then coeffEnd r k else 0 := by
  unfold coeffEnd
  rw [List.length_drop]
  by_cases c : k < r.length - s
  · rw [if_pos c, if_pos c, if_pos (by omega)]
    simp only [List.getD_eq_getElem?_getD, List.getElem?_drop]
    congr 2
    omega
  · rw [if_neg c, if_neg c]

/-- The threshold is not negative. -/
theorem tol_nonneg : 0 ≤ tol := by
  unfold tol
  norm_num

/-- Two vectors of the same length with the same entries are equal. -/
theorem ext_getD (a b : List ℚ) (hlen : a.length = b.length)
    (h : ∀ i, i < a.length → a.getD i 0 = b.getD i 0) : a = b := by
  apply List.ext_getElem hlen
  intro i h1 h2
  have := h i h1
  simpa [List.getD_eq_getElem?_getD, List.getElem?_eq_getElem h1,
    List.getElem?_eq_getElem h2] using this

/-- Entries of `polyadd` on operands of equal length. -/
theorem polyadd_getD_of_length_eq (p1 p2 : List ℚ) (hlen : p1.length = p2.length) (i : Nat)
    (hi : i < p1.length) : (polyadd p1 p2).getD i 0 = p1.getD i 0 + p2.getD i 0 := by
  rw [polyadd_getD p1 p2 i (by omega), getD_eq_coeffEnd p1 i hi,
    getD_eq_coeffEnd p2 i (by omega)]
  have e1 : max p1.length p2.length - 1 - i = p1.length - 1 - i := by omega
  have e2 : max p1.length p2.length - 1 - i = p2.length - 1 - i := by omega
  rw [← e1]
  congr 1
  rw [e2]

/-! ## The Sturm loop -/

/-- The threshold is positive. -/
theorem tol_pos : 0 < tol := by
  unfold tol
  norm_num

/-- Reading a suffix. -/
theorem getD_drop (r : List ℚ) (s i : Nat) : (r.drop s).getD i 0 = r.getD (s + i) 0 := by
  simp [List.getD_eq_getElem?_getD, List.getElem?_drop]

/-- What one call of `polyrem` returns, for non-empty `u` and `v` with `v[0] ≠ 0`: the
suffix of the raw buffer from the scan position `s`; it is not empty, it is shorter than
`v` (or a constant), and if it is longer than a constant its first entry is above the
threshold. -/
theorem polyrem_step (u v : List ℚ) (hu : 1 ≤ u.length) (hv : 1 ≤ v.length)
    (hv0 : v.getD 0 0 ≠ 0) :
    ∃ q r s, polyrem_divide u v = some (q, r) ∧ polyrem u v = some (r.drop s) ∧
      r.length = u.length ∧ s ≤ u.length - 1 ∧ (∀ j, j < s → |r.getD j 0| ≤ tol) ∧
      1 ≤ (r.drop s).length ∧ (r.drop s).length ≤ max 1 (v.length - 1) ∧
      ((r.drop s).length ≠ 1 → tol < |(r.drop s).getD 0 0|) := by
  obtain ⟨q, r, s, hdiv, hrem, _, hr, _, hzero, hs, hsmall, hbig⟩ := polyrem_spec u v hv
  have hlen : (r.drop s).length = u.length - s := by rw [List.length_drop, hr]
  have hsP : u.length + 1 - v.length ≤ s ∨ s = u.length - 1 := by
    by_cases c : s < u.length - 1
    · left
      by_contra hlt
      have h0 := hzero hv0 s (by omega)
      have hb := hbig c
      rw [h0, abs_zero] at hb
      exact absurd hb (not_lt.mpr tol_nonneg)
    · right; omega
  refine ⟨q, r, s, hdiv, hrem, hr, hs, hsmall, by omega, ?_, ?_⟩
  · rw [hlen]
    rcases hsP with h | h
    · have : u.length - s ≤ v.length - 1 := by omega
      exact le_trans this (le_max_right _ _)
    · have : u.length - s = 1 := by omega
      rw [this]; exact le_max_left _ _
  · intro hne
    rw [getD_drop, Nat.add_zero]
    exact hbig (by omega)

/-- `polyrem` returns a non-empty vector whenever both arguments are non-empty. -/
theorem polyrem_some (u v : List ℚ) (hu : 1 ≤ u.length) (hv : 1 ≤ v.length) :
    ∃ r, polyrem u v = some r ∧ 1 ≤ r.length := by
  obtain ⟨q, r, s, _, hrem, _, hr, _, _, hs, _, _⟩ := polyrem_spec u v hv
  exact ⟨r.drop s, hrem, by rw [List.length_drop, hr]; omega⟩

/-- Negation keeps the length. -/
theorem vneg_length (p : List ℚ) : (vneg p).length = p.length := by
  simp [vneg]

/-- Entries of the negated vector. -/
theorem vneg_getD (p : List ℚ) (i : Nat) : (vneg p).getD i 0 = -(p.getD i 0) := by
  unfold vneg
  simp only [List.getD_eq_getElem?_getD, List.getElem?_map]
  cases p[i]? <;> simp

/-- The loop produces its terms whenever it starts from two non-empty vectors; every
term is non-empty. -/
theorem sturm_tail_some (fuel : Nat) (p0 p1 : List ℚ) (h0 : 1 ≤ p0.length)
    (h1 : 1 ≤ p1.length) :
    ∃ ext, sturm_tail fuel p0 p1 = some ext ∧ ∀ t ∈ ext, 1 ≤ t.length := by
  induction fuel generalizing p0 p1 with
  | zero => exact ⟨[], rfl, fun t ht => by simp at ht⟩
  | succ fuel ih =>
    obtain ⟨r, hr, hrl⟩ := polyrem_some p0 p1 h0 h1
    have htl : 1 ≤ (vneg r).length := by rw [vneg_length]; exact hrl
    by_cases c : (vneg r).length = 1
    · refine ⟨[vneg r], ?_, ?_⟩
      · simp only [sturm_tail, hr, Option.some_bind, Option.bind_eq_bind, if_pos c]
      · intro t ht
        simp only [List.mem_singleton] at ht
        rw [ht]; exact htl
    · obtain ⟨rest, hrest, hne⟩ := ih p1 (vneg r) h1 htl
      refine ⟨vneg r :: rest, ?_, ?_⟩
      · simp only [sturm_tail, hr, Option.some_bind, Option.bind_eq_bind, if_neg c, hrest]
      · intro t ht
        rcases List.mem_cons.mp ht with h | h
        · rw [h]; exact htl
        · exact hne t h

/-- Unfolding of one pass of the loop. -/
theorem sturm_tail_succ (fuel : Nat) (p0 p1 : List ℚ) (ext : List (List ℚ))
    (h : sturm_tail (fuel + 1) p0 p1 = some ext) :
    ∃ r, polyrem p0 p1 = some r ∧
      (((vneg r).length = 1 ∧ ext = [vneg r]) ∨
       ((vneg r).length ≠ 1 ∧ ∃ rest, sturm_tail fuel p1 (vneg r) = some rest ∧
          ext = vneg r :: rest)) := by
  cases hr : polyrem p0 p1 with
  | none => simp [sturm_tail, hr] at h
  | some r =>
    refine ⟨r, rfl, ?_⟩
    simp only [sturm_tail, hr, Option.some_bind, Option.bind_eq_bind] at h
    by_cases c : (vneg r).length = 1
    · rw [if_pos c] at h
      left; exact ⟨c, (Option.some.inj h).symm⟩
    · rw [if_neg c] at h
      right
      refine ⟨c, ?_⟩
      cases hrest : sturm_tail fuel p1 (vneg r) with
      | none => simp [hrest] at h
      | some rest =>
        simp only [hrest, Option.some_bind] at h
        exact ⟨rest, rfl, (Option.some.inj h).symm⟩

/-- The loop of `polysturm` appends the terms of the shared loop. -/
theorem polysturm_loop_eq (fuel : Nat) (p0 p1 : List ℚ) (sturm ext : List (List ℚ))
    (h : sturm_tail fuel p0 p1 = some ext) :
    polysturm_loop fuel p0 p1 sturm = some (sturm ++ ext) := by
  induction fuel generalizing p0 p1 sturm ext with
  | zero =>
    simp only [sturm_tail] at h
    cases h
    simp [polysturm_loop]
  | succ fuel ih =>
    obtain ⟨r, hr, hcase⟩ := sturm_tail_succ fuel p0 p1 ext h
    rcases hcase with ⟨c, hext⟩ | ⟨c, rest, hrest, hext⟩
    · simp only [polysturm_loop, hr, Option.some_bind, Option.bind_eq_bind, if_pos c, hext]
    · simp only [polysturm_loop, hr, Option.some_bind, Option.bind_eq_bind, if_neg c, hext]
      rw [ih p1 (vneg r) _ rest hrest]
      simp

/-- The traced loop of `polysturm` returns the same sequence and records `sturm_calls`. -/
theorem polysturm_loop_traced_eq (fuel : Nat) (p0 p1 : List ℚ) (sturm ext : List (List ℚ))
    (calls : List (List ℚ × List ℚ)) (h : sturm_tail fuel p0 p1 = some ext) :
    polysturm_loop_traced fuel p0 p1 sturm calls =
      some (sturm ++ ext, calls ++ sturm_calls p0 p1 ext) := by
  induction fuel generalizing p0 p1 sturm ext calls with
  | zero =>
    simp only [sturm_tail] at h
    cases h
    simp [polysturm_loop_traced, sturm_calls]
  | succ fuel ih =>
    obtain ⟨r, hr, hcase⟩ := sturm_tail_succ fuel p0 p1 ext h
    rcases hcase with ⟨c, hext⟩ | ⟨c, rest, hrest, hext⟩
    · simp only [polysturm_loop_traced, hr, Option.some_bind, Option.bind_eq_bind, if_pos c,
        hext, sturm_calls]
    · simp only [polysturm_loop_traced, hr, Option.some_bind, Option.bind_eq_bind, if_neg c,
        hext, sturm_calls]
      rw [ih p1 (vneg r) _ rest _ hrest]
      simp

/-- Unfolding of `adjacentChanges` on a list with two members at least. -/
theorem adjacentChanges_cons_cons (a b : Int) (rest : List Int) :
    adjacentChanges (a :: b :: rest) = (if a ≠ b then 1 else 0) + adjacentChanges (b :: rest) :=
  rfl

/-- A comparison `a != b` used as an integer. -/
theorem b2i_bne (a b : Int) : b2i (a != b) = ((if a ≠ b then 1 else 0 : Nat) : Int) := by
  unfold b2i
  by_cases h : a = b <;> simp [h]

/-- The loop of `polycountroots` adds to `count` the sign changes at `0` and subtracts the
sign changes at infinity along `p1` and the terms of the shared loop. -/
theorem polycountroots_loop_eq (fuel : Nat) (p0 p1 : List ℚ) (count : Int)
    (ext : List (List ℚ)) (h0 : 1 ≤ p0.length) (h1 : 1 ≤ p1.length)
    (h : sturm_tail fuel p0 p1 = some ext) :
    polycountroots_loop fuel p0 p1 (sgn (p1.getD (p1.length - 1) 0)) (sgn (p1.getD 0 0)) count
      = some (count + (signChangesAtZero (p1 :: ext) : Int)
          - (signChangesAtInfinity (p1 :: ext) : Int)) := by
  induction fuel generalizing p0 p1 count ext with
  | zero =>
    simp only [sturm_tail] at h
    cases h
    simp [polycountroots_loop, signChangesAtZero, signChangesAtInfinity, adjacentChanges]
  | succ fuel ih =>
    obtain ⟨r, hr, hcase⟩ := sturm_tail_succ fuel p0 p1 ext h
    obtain ⟨r2, hr2, hrl⟩ := polyrem_some p0 p1 h0 h1
    rw [hr] at hr2
    cases hr2
    have htl : 1 ≤ (vneg r).length := by rw [vneg_length]; exact hrl
    have hlast : (vneg r)[(vneg r).length - 1]? = some ((vneg r).getD ((vneg r).length - 1) 0) :=
      getElem?_eq_some_getD _ _ (by omega)
    have hfirst : (vneg r)[0]? = some ((vneg r).getD 0 0) :=
      getElem?_eq_some_getD _ _ (by omega)
    rcases hcase with ⟨c, hext⟩ | ⟨c, rest, hrest, hext⟩
    · simp only [polycountroots_loop, hr, Option.some_bind, Option.bind_eq_bind, hlast, hfirst,
        if_pos c, hext, signChangesAtZero, signChangesAtInfinity, List.map_cons, List.map_nil,
        adjacentChanges, b2i_bne]
      simp
    · simp only [polycountroots_loop, hr, Option.some_bind, Option.bind_eq_bind, hlast, hfirst,
        if_neg c, hext]
      rw [ih p1 (vneg r) _ rest h1 htl hrest]
      simp only [signChangesAtZero, signChangesAtInfinity, List.map_cons,
        adjacentChanges_cons_cons, b2i_bne]
      congr 1
      push_cast
      ring

/-- The traced loop of `polycountroots` returns the same count and records `sturm_calls`. -/
theorem polycountroots_loop_traced_eq (fuel : Nat) (p0 p1 : List ℚ) (count : Int)
    (ext : List (List ℚ)) (calls : List (List ℚ × List ℚ)) (h0 : 1 ≤ p0.length)
    (h1 : 1 ≤ p1.length) (h : sturm_tail fuel p0 p1 = some ext) :
    polycountroots_loop_traced fuel p0 p1 (sgn (p1.getD (p1.length - 1) 0))
        (sgn (p1.getD 0 0)) count calls
      = some (count + (signChangesAtZero (p1 :: ext) : Int)
          - (signChangesAtInfinity (p1 :: ext) : Int), calls ++ sturm_calls p0 p1 ext) := by
  induction fuel generalizing p0 p1 count ext calls with
  | zero =>
    simp only [sturm_tail] at h
    cases h
    simp [polycountroots_loop_traced, signChangesAtZero, signChangesAtInfinity,
      adjacentChanges, sturm_calls]
  | succ fuel ih =>
    obtain ⟨r, hr, hcase⟩ := sturm_tail_succ fuel p0 p1 ext h
    obtain ⟨r2, hr2, hrl⟩ := polyrem_some p0 p1 h0 h1
    rw [hr] at hr2
    cases hr2
    have htl : 1 ≤ (vneg r).length := by rw [vneg_length]; exact hrl
    have hlast : (vneg r)[(vneg r).length - 1]? = some ((vneg r).getD ((vneg r).length - 1) 0) :=
      getElem?_eq_some_getD _ _ (by omega)
    have hfirst : (vneg r)[0]? = some ((vneg r).getD 0 0) :=
      getElem?_eq_some_getD _ _ (by omega)
    rcases hcase with ⟨c, hext⟩ | ⟨c, rest, hrest, hext⟩
    · simp only [polycountroots_loop_traced, hr, Option.some_bind, Option.bind_eq_bind, hlast,
        hfirst, if_pos c, hext, signChangesAtZero, signChangesAtInfinity, List.map_cons,
        List.map_nil, adjacentChanges, b2i_bne, sturm_calls]
      simp
    · simp only [polycountroots_loop_traced, hr, Option.some_bind, Option.bind_eq_bind, hlast,
        hfirst, if_neg c, hext]
      rw [ih p1 (vneg r) _ rest _ h1 htl hrest]
      simp only [signChangesAtZero, signChangesAtInfinity, List.map_cons,
        adjacentChanges_cons_cons, b2i_bne, sturm_calls, List.append_assoc,
        List.singleton_append]
      congr 2
      push_cast
      ring

/-- What `polysturm`, `polycountroots` and their traced forms return on a vector of length
`2` at least, in terms of the derivative `d` and the terms `ext` of the shared loop. -/
theorem sturm_top (p : List ℚ) (hp : 2 ≤ p.length) :
    ∃ d ext, polyder p = some d ∧ d.length = p.length - 1 ∧
      sturm_tail (p.length - 1) p d = some ext ∧ (∀ t ∈ ext, 1 ≤ t.length) ∧
      polysturm p = some (p :: d :: ext) ∧
      polysturm_traced p = some (p :: d :: ext, sturm_calls p d ext) ∧
      polycountroots p = some ((signChangesAtZero (p :: d :: ext) : Int)
        - (signChangesAtInfinity (p :: d :: ext) : Int)) ∧
      polycountroots_traced p = some ((signChangesAtZero (p :: d :: ext) : Int)
        - (signChangesAtInfinity (p :: d :: ext) : Int), sturm_calls p d ext) := by
  obtain ⟨d, hd, hdl, _⟩ := polyder_spec p (by omega)
  obtain ⟨ext, hext, hne⟩ := sturm_tail_some (p.length - 1) p d (by omega) (by omega)
  have en : ((p.length : Int) - 1).toNat = p.length - 1 := by omega
  have hdlast : d[d.length - 1]? = some (d.getD (d.length - 1) 0) :=
    getElem?_eq_some_getD _ _ (by omega)
  have hdfirst : d[0]? = some (d.getD 0 0) := getElem?_eq_some_getD _ _ (by omega)
  have hplast : p[p.length - 1]? = some (p.getD (p.length - 1) 0) :=
    getElem?_eq_some_getD _ _ (by omega)
  have hpfirst : p[0]? = some (p.getD 0 0) := getElem?_eq_some_getD _ _ (by omega)
  refine ⟨d, ext, hd, hdl, hext, hne, ?_, ?_, ?_, ?_⟩
  · simp only [polysturm, hd, Option.some_bind, Option.bind_eq_bind, en]
    rw [polysturm_loop_eq _ _ _ _ ext hext]
    simp
  · simp only [polysturm_traced, hd, Option.some_bind, Option.bind_eq_bind, en]
    rw [polysturm_loop_traced_eq _ _ _ _ ext _ hext]
    simp
  · simp only [polycountroots, hd, Option.some_bind, Option.bind_eq_bind, en, hdlast, hdfirst,
      hplast, hpfirst]
    rw [polycountroots_loop_eq _ _ _ _ ext (by omega) (by omega) hext]
    simp only [signChangesAtZero, signChangesAtInfinity, List.map_cons,
      adjacentChanges_cons_cons, b2i_bne]
    congr 1
    push_cast
    ring
  · simp only [polycountroots_traced, hd, Option.some_bind, Option.bind_eq_bind, en, hdlast,
      hdfirst, hplast, hpfirst]
    rw [polycountroots_loop_traced_eq _ _ _ _ ext _ (by omega) (by omega) hext]
    simp only [signChangesAtZero, signChangesAtInfinity, List.map_cons,
      adjacentChanges_cons_cons, b2i_bne, List.nil_append]
    congr 2
    push_cast
    ring

/-- Every term of the shared loop is the negated remainder of the two terms before it. -/
theorem sturm_tail_structure (fuel : Nat) (p0 p1 : List ℚ) (ext : List (List ℚ))
    (h : sturm_tail fuel p0 p1 = some ext) (i : Nat) (hi : i < ext.length) :
    ∃ a b r, (p0 :: p1 :: ext)[i]? = some a ∧ (p0 :: p1 :: ext)[i + 1]? = some b ∧
      polyrem a b = some r ∧ ext[i]? = some (vneg r) := by
  induction fuel generalizing p0 p1 ext i with
  | zero =>
    simp only [sturm_tail] at h
    cases h
    simp at hi
  | succ fuel ih =>
    obtain ⟨r, hr, hcase⟩ := sturm_tail_succ fuel p0 p1 ext h
    rcases hcase with ⟨_, hext⟩ | ⟨_, rest, hrest, hext⟩
    · subst hext
      have : i = 0 := by simpa using hi
      subst this
      exact ⟨p0, p1, r, rfl, rfl, hr, rfl⟩
    · subst hext
      cases i with
      | zero => exact ⟨p0, p1, r, rfl, rfl, hr, by simp⟩
      | succ j =>
        obtain ⟨a, b, r2, ha, hb, hr2, ht⟩ :=
          ih p1 (vneg r) rest hrest j (by simpa using hi)
        exact ⟨a, b, r2, by simpa using ha, by simpa using hb, hr2, by simpa using ht⟩

/-- The shared loop makes at most `fuel` passes, only its last term can have length `1`,
and its last term has length `1` when it made fewer than `fuel` passes. -/
theorem sturm_tail_stop (fuel : Nat) (p0 p1 : List ℚ) (ext : List (List ℚ))
    (h : sturm_tail fuel p0 p1 = some ext) :
    ext.length ≤ fuel ∧ (1 ≤ fuel → 1 ≤ ext.length) ∧
      (∀ i, i + 1 < ext.length → (ext.getD i []).length ≠ 1) ∧
      (ext.length < fuel → (ext.getD (ext.length - 1) []).length = 1) := by
  induction fuel generalizing p0 p1 ext with
  | zero =>
    simp only [sturm_tail] at h
    cases h
    simp
  | succ fuel ih =>
    obtain ⟨r, hr, hcase⟩ := sturm_tail_succ fuel p0 p1 ext h
    rcases hcase with ⟨c, hext⟩ | ⟨c, rest, hrest, hext⟩
    · subst hext
      refine ⟨by simp, by simp, fun i hi => by simp at hi, fun _ => by simpa using c⟩
    · subst hext
      obtain ⟨h1, h2, h3, h4⟩ := ih p1 (vneg r) rest hrest
      refine ⟨by simp; omega, by simp, ?_, ?_⟩
      · intro i hi
        cases i with
        | zero => simpa using c
        | succ j =>
          have := h3 j (by simpa using hi)
          simpa using this
      · intro hlt
        have hlt2 : rest.length < fuel := by simpa using hlt
        have hpos : 1 ≤ rest.length := h2 (by omega)
        have := h4 hlt2
        have e : (vneg r :: rest).length - 1 = (rest.length - 1) + 1 := by
          simp only [List.length_cons]; omega
        rw [e]
        simpa using this

/-- Leading coefficient of the negated remainder. -/
theorem vneg_lead_ne_zero (r : List ℚ) (h : tol < |r.getD 0 0|) : (vneg r).getD 0 0 ≠ 0 := by
  rw [vneg_getD]
  intro h0
  have : r.getD 0 0 = 0 := by linarith
  rw [this, abs_zero] at h
  exact absurd h (not_lt.mpr tol_nonneg)

/-- The lengths strictly decrease along `p0`, `p1` and the terms of the shared loop, when
`p0` is longer than `p1`, `p1[0] ≠ 0` and `p1` has length `2` at least. -/
theorem sturm_tail_chain (fuel : Nat) (p0 p1 : List ℚ) (ext : List (List ℚ))
    (h0 : p1.length < p0.length) (h1 : 2 ≤ p1.length) (hlead : p1.getD 0 0 ≠ 0)
    (h : sturm_tail fuel p0 p1 = some ext) :
    List.Chain' (fun a b : List ℚ => b.length < a.length) (p0 :: p1 :: ext) := by
  induction fuel generalizing p0 p1 ext with
  | zero =>
    simp only [sturm_tail] at h
    cases h
    simp [h0]
  | succ fuel ih =>
    obtain ⟨r, hr, hcase⟩ := sturm_tail_succ fuel p0 p1 ext h
    obtain ⟨q, rr, s, _, hrem, _, _, _, hge, hle, hbig⟩ :=
      polyrem_step p0 p1 (by omega) (by omega) hlead
    rw [hr] at hrem
    cases hrem
    have hlt : (vneg (rr.drop s)).length < p1.length := by
      rw [vneg_length]
      have : (rr.drop s).length ≤ p1.length - 1 := by
        rcases le_max_iff.mp hle with h | h <;> omega
      omega
    rcases hcase with ⟨_, hext⟩ | ⟨c, rest, hrest, hext⟩
    · subst hext
      simp [h0, hlt]
    · subst hext
      rw [vneg_length] at c
      have := ih p1 (vneg (rr.drop s)) rest hlt (by rw [vneg_length]; omega)
        (vneg_lead_ne_zero _ (hbig c)) hrest
      exact List.Chain'.cons h0 this

/-- `polyval` evaluates the denoted polynomial. -/
theorem polyval_eq_eval (p : List ℚ) (x : ℚ) : polyval p x = (toPoly p).eval x := by
  rw [polyval_eq_sum, toPoly, Polynomial.eval_finset_sum,
    ← Finset.sum_range_reflect (fun k => Polynomial.eval x (Polynomial.monomial k (coeffEnd p k)))]
  apply Finset.sum_congr rfl
  intro i hi
  have hi2 : i < p.length := Finset.mem_range.mp hi
  rw [Polynomial.eval_monomial, getD_eq_coeffEnd p i hi2]

/-- A nonzero first entry, read with a default. -/
theorem lead_ne_zero (p : List ℚ) (hp : 1 ≤ p.length) (h : p[0]? ≠ some 0) :
    p.getD 0 0 ≠ 0 := by
  intro h0
  apply h
  rw [getElem?_eq_some_getD p 0 (by omega), h0]

/-- The number of recorded calls is the number of terms of the shared loop. -/
theorem sturm_calls_length (p0 p1 : List ℚ) (ext : List (List ℚ)) :
    (sturm_calls p0 p1 ext).length = ext.length := by
  induction ext generalizing p0 p1 with
  | nil => rfl
  | cons t rest ih => simp [sturm_calls, ih]

/-- Leading coefficient and length of the derivative of a vector of length `2` at least. -/
theorem polyder_lead (p d : List ℚ) (hp : 2 ≤ p.length) (h0 : p.getD 0 0 ≠ 0)
    (hd : polyder p = some d) : d.length = p.length - 1 ∧ d.getD 0 0 ≠ 0 := by
  obtain ⟨d2, hd2, hdl, hget⟩ := polyder_spec p (by omega)
  rw [hd] at hd2
  cases hd2
  refine ⟨hdl, ?_⟩
  rw [hget 0 (by omega)]
  apply mul_ne_zero h0
  have : (1 : ℚ) ≤ ((p.length - 1 : Nat) : ℚ) := by
    have : 1 ≤ p.length - 1 := by omega
    exact_mod_cast this
  simp only [Nat.cast_zero, sub_zero]
  linarith

/-! ## The remainder in binary64 -/

/-- A checked read inside a binary64 vector succeeds. -/
theorem getElem?_eq_some_getD_dbl (l : List Dbl) (i : Nat) (h : i < l.length) :
    l[i]? = some (l.getD i dzero) := by
  simp [List.getD_eq_getElem?_getD, List.getElem?_eq_getElem h]

/-- The inner loop of `polyrem` returns, and keeps the length of the buffer, whatever the
values are. -/
theorem polyrem_inner_dbl_some (v : List Dbl) (d : Dbl) (k : Nat) (r : List Dbl) (t : Nat)
    (ht : t ≤ v.length) (hk : k + t ≤ r.length) :
    ∃ r1, polyrem_inner_dbl v d k t r = some r1 ∧ r1.length = r.length := by
  induction t with
  | zero => exact ⟨r, by simp [polyrem_inner_dbl], rfl⟩
  | succ t ih =>
    obtain ⟨r1, h1, hlen⟩ := ih (by omega) (by omega)
    unfold polyrem_inner_dbl at h1 ⊢
    rw [List.range_succ, List.foldlM_append, h1]
    have hr : r1[k + t]? = some (r1.getD (k + t) dzero) :=
      getElem?_eq_some_getD_dbl r1 (k + t) (by omega)
    have hv : v[t]? = some (v.getD t dzero) := getElem?_eq_some_getD_dbl v t (by omega)
    refine ⟨r1.set (k + t) (Dbl.sub (r1.getD (k + t) dzero) (Dbl.mul d (v.getD t dzero))),
      ?_, ?_⟩
    · simp only [List.foldlM_cons, List.foldlM_nil, hr, hv, vset_dbl, Option.some_bind,
        Option.bind_eq_bind, if_pos (show k + t < r1.length by omega)]
      rfl
    · rw [List.length_set, hlen]

/-- The elimination loop of `polyrem` returns, and keeps the lengths of `q` and of the
buffer, whatever the values are. -/
theorem polyrem_outer_dbl_some (v : List Dbl) (scale : Dbl) (q r : List Dbl) (p : Nat)
    (hq : p ≤ q.length) (hp : ∀ k, k < p → k + v.length ≤ r.length ∧ k < r.length)
    (t : Nat) (ht : t ≤ p) :
    ∃ q1 r1, polyrem_outer_dbl v scale v.length t q r = some (q1, r1) ∧
      q1.length = q.length ∧ r1.length = r.length := by
  induction t with
  | zero => exact ⟨q, r, by simp [polyrem_outer_dbl], rfl, rfl⟩
  | succ t ih =>
    obtain ⟨q1, r1, hrun, hq1, hr1⟩ := ih (by omega)
    have hpt := hp t (by omega)
    obtain ⟨r2, hin, hlen2⟩ :=
      polyrem_inner_dbl_some v (Dbl.mul scale (r1.getD t dzero)) t r1 v.length le_rfl
        (by omega)
    have hrt : r1[t]? = some (r1.getD t dzero) :=
      getElem?_eq_some_getD_dbl r1 t (by omega)
    refine ⟨q1.set t (Dbl.mul scale (r1.getD t dzero)), r2, ?_, ?_, ?_⟩
    · unfold polyrem_outer_dbl at hrun ⊢
      rw [List.range_succ, List.foldlM_append, hrun]
      simp only [List.foldlM_cons, List.foldlM_nil, Option.some_bind, Option.bind_eq_bind,
        hrt, vset_dbl, if_pos (show t < q1.length by omega), hin]
      rfl
    · rw [List.length_set, hq1]
    · rw [hlen2, hr1]

/-- Lines 43-53 of `polyrem` return a buffer of the length of `u`, for every non-empty
divisor, whatever its leading coefficient. -/
theorem polyrem_divide_dbl_some (u v : List Dbl) (hv : 1 ≤ v.length) :
    ∃ q r, polyrem_divide_dbl u v = some (q, r) ∧ r.length = u.length := by
  have hv0 : v[0]? = some (v.getD 0 dzero) := getElem?_eq_some_getD_dbl v 0 (by omega)
  have en : (((v.length : Int) - 1) + 1).toNat = v.length := by omega
  have ep : (((u.length : Int) - 1) - ((v.length : Int) - 1) + 1).toNat
      = u.length + 1 - v.length := by omega
  have eq : (max (((u.length : Int) - 1) - ((v.length : Int) - 1) + 1) 1).toNat
      = max (u.length + 1 - v.length) 1 := by omega
  obtain ⟨q, r, hrun, _, hr⟩ :=
    polyrem_outer_dbl_some v (Dbl.div (Dbl.fin 1) (v.getD 0 dzero))
      (List.replicate (max (u.length + 1 - v.length) 1) dzero) u (u.length + 1 - v.length)
      (by rw [List.length_replicate]; exact le_max_left _ _)
      (fun k hk => by omega) (u.length + 1 - v.length) le_rfl
  refine ⟨q, r, ?_, hr⟩
  unfold polyrem_divide_dbl
  simp only [hv0, Option.some_bind, Option.bind_eq_bind, en, ep, eq]
  exact hrun

/-- The scan of `polyrem` stops at the first entry that passes the test
`abs(x) > 1e-14`, or at `m`. -/
theorem polyrem_strt_dbl_spec (r : List Dbl) (fuel strt : Nat) (h : strt + fuel ≤ r.length) :
    ∃ s, polyrem_strt_dbl r fuel strt = some s ∧ strt ≤ s ∧ s ≤ strt + fuel ∧
      (∀ j, strt ≤ j → j < s → aboveTol (r.getD j dzero) = false) ∧
      (s < strt + fuel → aboveTol (r.getD s dzero) = true) := by
  induction fuel generalizing strt with
  | zero =>
    exact ⟨strt, rfl, le_rfl, le_rfl, fun j h1 h2 => by omega, fun h => by omega⟩
  | succ fuel ih =>
    have hrs : r[strt]? = some (r.getD strt dzero) :=
      getElem?_eq_some_getD_dbl r strt (by omega)
    by_cases c : aboveTol (r.getD strt dzero) = true
    · refine ⟨strt, ?_, le_rfl, by omega, fun j h1 h2 => by omega, fun _ => c⟩
      simp only [polyrem_strt_dbl, hrs, Option.some_bind, Option.bind_eq_bind, if_pos c]
    · obtain ⟨s, hs, h1, h2, h3, h4⟩ := ih (strt + 1) (by omega)
      refine ⟨s, ?_, by omega, by omega, ?_, fun hlt => h4 (by omega)⟩
      · simp only [polyrem_strt_dbl, hrs, Option.some_bind, Option.bind_eq_bind, if_neg c]
        exact hs
      · intro j hj1 hj2
        by_cases e : j = strt
        · subst e; simpa using c
        · exact h3 j (by omega) hj2

/-- How `polyrem` is assembled in binary64: the suffix of the raw buffer from the scan
position. -/
theorem polyrem_dbl_spec (u v : List Dbl) (hv : 1 ≤ v.length) :
    ∃ q r s, polyrem_divide_dbl u v = some (q, r) ∧ polyrem_dbl u v = some (r.drop s) ∧
      r.length = u.length ∧ s ≤ u.length - 1 ∧
      (∀ j, j < s → aboveTol (r.getD j dzero) = false) ∧
      (s < u.length - 1 → aboveTol (r.getD s dzero) = true) := by
  obtain ⟨q, r, hdiv, hr⟩ := polyrem_divide_dbl_some u v hv
  have em : ((u.length : Int) - 1).toNat = u.length - 1 := by omega
  obtain ⟨s, hs, _, h2, h3, h4⟩ := polyrem_strt_dbl_spec r (u.length - 1) 0 (by omega)
  refine ⟨q, r, s, hdiv, ?_, hr, by omega, fun j hj => h3 j (Nat.zero_le j) hj,
    fun h => h4 (by omega)⟩
  unfold polyrem_dbl
  simp only [hdiv, Option.some_bind, Option.bind_eq_bind, em, hs, vtail_dbl]
  rw [if_pos (by omega)]
  congr 2
  omega

/-- The value of the literal `1e-14`. -/
theorem tolD_eq : tolD = Dbl.fin (6338253001141147 / 633825300114114700748351602688) := by
  decide!

/-- The entries that fail the test `abs(x) > 1e-14`: NaN, the zeros, and the finite values
of magnitude at most the double `1e-14`. -/
theorem aboveTol_eq_false (c : Dbl) :
    aboveTol c = false ↔
      c = Dbl.nan ∨ (∃ b, c = Dbl.zero b) ∨ (∃ q, c = Dbl.fin q ∧ |q| ≤ tolD.val) := by
  unfold aboveTol
  rw [tolD_eq]
  cases c with
  | zero b =>
    simp [Dbl.abs, Dbl.lt, Dbl.val]
    norm_num
  | fin q => simp [Dbl.abs, Dbl.lt, Dbl.val]
  | inf b => simp [Dbl.abs, Dbl.lt]
  | nan => simp [Dbl.abs, Dbl.lt]

/-- The entries that pass the test `abs(x) > 1e-14`: the infinities and the finite values
of magnitude above the double `1e-14`. -/
theorem aboveTol_eq_true (c : Dbl) :
    aboveTol c = true ↔ (∃ b, c = Dbl.inf b) ∨ (∃ q, c = Dbl.fin q ∧ tolD.val < |q|) := by
  unfold aboveTol
  rw [tolD_eq]
  cases c with
  | zero b =>
    simp [Dbl.abs, Dbl.lt, Dbl.val]
    norm_num
  | fin q => simp [Dbl.abs, Dbl.lt, Dbl.val]
  | inf b => simp [Dbl.abs, Dbl.lt]
  | nan => simp [Dbl.abs, Dbl.lt]

/-- Reading a suffix of a binary64 vector. -/
theorem getD_drop_dbl (r : List Dbl) (s i : Nat) :
    (r.drop s).getD i dzero = r.getD (s + i) dzero := by
  simp [List.getD_eq_getElem?_getD, List.getElem?_drop]

/-! ## The properties -/

/-- C1 (the code departs from it): `polycountroots` does not always return the number of
positive real roots.  `x² - 1 = [1, 0, -1]` has nonzero leading coefficient and the two real
roots `1` and `-1`, both simple (the derivative `[2, 0]` does not vanish there), so exactly
one root is positive, yet `polycountroots` returns `2`: the middle term `[2, 0]` of the
sequence has constant term `0`, and the comparison `s != s_0` of `sgn` values counts
`-1, 0, 1` as two sign changes. -/
theorem polycountroots_sq_sub_one_miscount :
    polycountroots [1, 0, -1] = some 2 ∧
    (∀ x : ℝ, polyval (([1, 0, -1] : List ℚ).map (fun c => (c : ℝ))) x = 0 ↔ x = 1 ∨ x = -1) ∧
    polyder [1, 0, -1] = some [2, 0] ∧
    (∀ x : ℝ, polyval (([1, 0, -1] : List ℚ).map (fun c => (c : ℝ))) x = 0 →
      polyval (([2, 0] : List ℚ).map (fun c => (c : ℝ))) x ≠ 0) ∧
    Set.ncard {x : ℝ | 0 < x ∧ polyval (([1, 0, -1] : List ℚ).map (fun c => (c : ℝ))) x = 0}
      = 1 := by
  have hroots : ∀ x : ℝ,
      polyval (([1, 0, -1] : List ℚ).map (fun c => (c : ℝ))) x = 0 ↔ x = 1 ∨ x = -1 := by
    intro x
    simp [polyval, List.range_succ]
    constructor
    · intro h
      have : (x - 1) * (x + 1) = 0 := by linarith
      rcases mul_eq_zero.mp this with h1 | h1
      · left; linarith
      · right; linarith
    · rintro (h | h) <;> subst h <;> norm_num
  have hsimple : ∀ x : ℝ, polyval (([1, 0, -1] : List ℚ).map (fun c => (c : ℝ))) x = 0 →
      polyval (([2, 0] : List ℚ).map (fun c => (c : ℝ))) x ≠ 0 := by
    intro x hx
    rcases (hroots x).mp hx with h | h <;> subst h <;> simp [polyval, List.range_succ]
  refine ⟨by decide!, hroots, by decide!, hsimple, ?_⟩
  have : {x : ℝ | 0 < x ∧ polyval (([1, 0, -1] : List ℚ).map (fun c => (c : ℝ))) x = 0}
      = {1} := by
    ext x
    simp only [Set.mem_setOf_eq, Set.mem_singleton_iff, hroots]
    constructor
    · rintro ⟨hpos, h | h⟩
      · exact h
      · subst h; norm_num at hpos
    · intro h; subst h; exact ⟨by norm_num, Or.inl rfl⟩
  rw [this, Set.ncard_singleton]

/-- C2: `polycountroots [1, -3, 2] = 2` and `polycountroots [1, 1, -2] = 1`. -/
theorem polycountroots_two_examples :
    polycountroots [1, -3, 2] = some 2 ∧ polycountroots [1, 1, -2] = some 1 := by
  constructor <;> decide!

/-- C3 (the code departs from it): on `x² + 1 = [1, 0, 1]`, which has no real root,
`polycountroots` returns `1`, not `0`. -/
theorem polycountroots_sq_add_one_miscount :
    polycountroots [1, 0, 1] = some 1 ∧
    ∀ x : ℝ, polyval (([1, 0, 1] : List ℚ).map (fun c => (c : ℝ))) x ≠ 0 := by
  refine ⟨by decide!, fun x => ?_⟩
  simp [polyval, List.range_succ]
  nlinarith [sq_nonneg x]

/-- C4: division identity.  For non-empty `u` and `v` with `v[0] ≠ 0`, with `q` the quotient
accumulated by the elimination loop of `polyrem` and `r` the remainder that `polyrem`
returns, every coefficient of `u` differs from the coefficient of the same degree of
`polyadd (polymul q v) r` by at most `1e-14` (vectors aligned at the constant term and
padded with zeros on the high-degree side). -/
theorem polyrem_division_identity (u v : List ℚ) (_hu : u ≠ []) (hv : v ≠ [])
    (_hv0 : v[0]? ≠ some 0) :
    ∃ q rraw r qv, polyrem_divide u v = some (q, rraw) ∧ polyrem u v = some r ∧
      polymul q v = some qv ∧
      ∀ k, |coeffEnd u k - coeffEnd (polyadd qv r) k| ≤ tol := by
  have hvl : 1 ≤ v.length := List.length_pos.mpr hv
  obtain ⟨q, r, s, hdiv, hrem, hq, hr, hinv, _, hs, hsmall, _⟩ := polyrem_spec u v hvl
  have hql : 1 ≤ q.length := by rw [hq]; exact le_max_right _ _
  refine ⟨q, r, r.drop s, _, hdiv, hrem, polymul_eq_some q v (by omega), fun k => ?_⟩
  have hqv := toPoly_polymul q v _ hql hvl (polymul_eq_some q v (by omega))
  have hk : coeffEnd u k = (toPoly q * toPoly v).coeff k + coeffEnd r k := by
    rw [← coeff_toPoly u, ← hinv, Polynomial.coeff_add, coeff_toPoly r]
  have hqvk : coeffEnd (polymul_loop q v (q.length + v.length - 1)
      (List.replicate (q.length + v.length - 1) 0)) k = (toPoly q * toPoly v).coeff k := by
    rw [← coeff_toPoly, hqv]
  rw [coeffEnd_polyadd, hqvk, hk, coeffEnd_drop r s k (by omega)]
  by_cases c : k < r.length - s
  · rw [if_pos c]
    simp [tol_nonneg]
  · rw [if_neg c, add_zero, add_sub_cancel_left]
    unfold coeffEnd
    by_cases c2 : k < r.length
    · rw [if_pos c2]
      exact hsmall _ (by omega)
    · rw [if_neg c2]
      simp [tol_nonneg]

/-- The division identity at `u = [1, -3, 2]`, `v = [2, -3]`. -/
theorem polyrem_division_identity_witness :
    ([1, -3, 2] : List ℚ) ≠ [] ∧ ([2, -3] : List ℚ) ≠ [] ∧ ([2, -3] : List ℚ)[0]? ≠ some 0 ∧
    ∃ q rraw r qv, polyrem_divide [1, -3, 2] [2, -3] = some (q, rraw) ∧
      polyrem [1, -3, 2] [2, -3] = some r ∧ polymul q [2, -3] = some qv ∧
      ∀ k, |coeffEnd [1, -3, 2] k - coeffEnd (polyadd qv r) k| ≤ tol :=
  ⟨by decide, by decide, by decide!,
    polyrem_division_identity [1, -3, 2] [2, -3] (by decide) (by decide) (by decide!)⟩

/-- C5 fails in binary64: for `[1, 1]` at `x = 2^53` the Horner loop of `polyval` returns
`2^53`, while `c0 * x + c1` is `2^53 + 1`; and for `[1, 0]` at `x = +inf` it returns NaN
(`0 * inf`). -/
theorem polyval_dbl_rounds :
    polyval_dbl [Dbl.fin 1, Dbl.fin 1] (Dbl.fin 9007199254740992)
      = Dbl.fin 9007199254740992 ∧
    polyval ([1, 1] : List ℚ) 9007199254740992 = 9007199254740993 ∧
    polyval_dbl [Dbl.fin 1, Dbl.zero false] (Dbl.inf false) = Dbl.nan := by
  refine ⟨by decide!, by decide!, by decide!⟩

/-- C5, amended: in exact arithmetic, for coefficients `[c0, …, cn]` and any `x`, `polyval`
returns `c0 * x^n + c1 * x^(n-1) + … + cn`; and for `p = [1, -3, 2]`, `polyval p 1 = 0`,
`polyval p 2 = 0`, `polyval p 0 = 2`, in exact arithmetic and in binary64 alike. -/
theorem polyval_horner_sum :
    (∀ (p : List ℚ) (x : ℚ),
      polyval p x = ∑ i in Finset.range p.length, p.getD i 0 * x ^ (p.length - 1 - i)) ∧
    polyval [1, -3, 2] (1 : ℚ) = 0 ∧ polyval [1, -3, 2] (2 : ℚ) = 0 ∧
    polyval [1, -3, 2] (0 : ℚ) = 2 ∧
    polyval_dbl [Dbl.fin 1, Dbl.fin (-3), Dbl.fin 2] (Dbl.fin 1) = Dbl.zero false ∧
    polyval_dbl [Dbl.fin 1, Dbl.fin (-3), Dbl.fin 2] (Dbl.fin 2) = Dbl.zero false ∧
    polyval_dbl [Dbl.fin 1, Dbl.fin (-3), Dbl.fin 2] (Dbl.zero false) = Dbl.fin 2 :=
  ⟨fun p x => polyval_eq_sum p x, by decide!, by decide!, by decide!, by decide!, by decide!,
    by decide!⟩

/-- C6: `polyadd p1 p2` has length `max (len p1) (len p2)`, and its coefficient at
distance `k` from the constant-term end is the sum of those of `p1` and `p2` at that distance,
a missing coefficient counting as `0`; a leading sum that cancels is kept, as in
`polyadd [1, 2] [-1, 3] = [0, 5]`. -/
theorem polyadd_coefficientwise :
    (∀ p1 p2 : List ℚ, (polyadd p1 p2).length = max p1.length p2.length ∧
      ∀ k, coeffEnd (polyadd p1 p2) k = coeffEnd p1 k + coeffEnd p2 k) ∧
    polyadd [1, 2] [-1, 3] = [0, 5] :=
  ⟨fun p1 p2 => ⟨polyadd_length p1 p2, coeffEnd_polyadd p1 p2⟩, by decide!⟩

/-- C7: `polyadd` is commutative and associative, as coefficient vectors, for operands of
any lengths. -/
theorem polyadd_commutative_associative :
    (∀ p1 p2 : List ℚ, polyadd p1 p2 = polyadd p2 p1) ∧
    (∀ p1 p2 p3 : List ℚ, polyadd (polyadd p1 p2) p3 = polyadd p1 (polyadd p2 p3)) :=
  ⟨polyadd_comm, polyadd_assoc⟩

/-- C8: for non-empty `p1` and `p2`, `polymul p1 p2` has length `len p1 + len p2 - 1`. -/
theorem polymul_result_length (p1 p2 : List ℚ) (h1 : p1 ≠ []) (h2 : p2 ≠ []) :
    ∃ r, polymul p1 p2 = some r ∧ r.length = p1.length + p2.length - 1 := by
  have hl1 := List.length_pos.mpr h1
  have hl2 := List.length_pos.mpr h2
  exact ⟨_, polymul_eq_some p1 p2 (by omega), polymul_loop_length p1 p2 _⟩

/-- The length law at `[1, 2]` and `[1, 3, 4]`. -/
theorem polymul_result_length_witness :
    ([1, 2] : List ℚ) ≠ [] ∧ ([1, 3, 4] : List ℚ) ≠ [] ∧
    ∃ r, polymul [1, 2] [1, 3, 4] = some r ∧ r.length = 2 + 3 - 1 :=
  ⟨by decide, by decide, polymul_result_length [1, 2] [1, 3, 4] (by decide) (by decide)⟩

/-- C9: for `p` of length `n + 1` with `n ≥ 1`, `polyder p` has length `n` and its `i`-th
coefficient is `p[i] * (n - i)` for every `i < n`. -/
theorem polyder_coefficients (p : List ℚ) (n : Nat) (hlen : p.length = n + 1) (hn : 1 ≤ n) :
    ∃ d, polyder p = some d ∧ d.length = n ∧
      ∀ i : Nat, i < n → ∃ c, p[i]? = some c ∧ d[i]? = some (c * ((n : ℚ) - (i : ℚ))) := by
  obtain ⟨d, hd, hdl, hget⟩ := polyder_spec p (by omega)
  have e : p.length - 1 = n := by omega
  rw [e] at hdl hget
  refine ⟨d, hd, hdl, fun i hi => ⟨p.getD i 0, getElem?_eq_some_getD p i (by omega), ?_⟩⟩
  rw [getElem?_eq_some_getD d i (by omega), hget i hi]

/-- The derivative of `[1, 2, 3, 4]`. -/
theorem polyder_coefficients_witness :
    ([1, 2, 3, 4] : List ℚ).length = 3 + 1 ∧ 1 ≤ 3 ∧
    ∃ d, polyder [1, 2, 3, 4] = some d ∧ d.length = 3 ∧
      ∀ i : Nat, i < 3 → ∃ c, ([1, 2, 3, 4] : List ℚ)[i]? = some c ∧
        d[i]? = some (c * (((3 : Nat) : ℚ) - (i : ℚ))) :=
  ⟨by decide, by decide, polyder_coefficients [1, 2, 3, 4] 3 (by decide) (by decide)⟩

/-- C10 fails in binary64: for `p1 = [0.1, 0, 0, 0]` and `p2 = [0.3, 0, 0, 0]` the
derivative of the sum has leading coefficient `fl(0.4 * 3) = 1.2000000000000002`, and the
sum of the derivatives `fl(fl(0.1 * 3) + fl(0.3 * 3)) = 1.2`. -/
theorem polyder_dbl_not_linear :
    polyder_dbl (polyadd_dbl [Dbl.ofRat (1 / 10), dzero, dzero, dzero]
        [Dbl.ofRat (3 / 10), dzero, dzero, dzero])
      = some [Dbl.fin (1351079888211149 / 1125899906842624), dzero, dzero] ∧
    polyder_dbl [Dbl.ofRat (1 / 10), dzero, dzero, dzero]
      = some [Dbl.fin (1351079888211149 / 4503599627370496), dzero, dzero] ∧
    polyder_dbl [Dbl.ofRat (3 / 10), dzero, dzero, dzero]
      = some [Dbl.fin (2026619832316723 / 2251799813685248), dzero, dzero] ∧
    polyadd_dbl [Dbl.fin (1351079888211149 / 4503599627370496), dzero, dzero]
        [Dbl.fin (2026619832316723 / 2251799813685248), dzero, dzero]
      = [Dbl.fin (5404319552844595 / 4503599627370496), dzero, dzero] ∧
    (1351079888211149 / 1125899906842624 : ℚ) ≠ 5404319552844595 / 4503599627370496 := by
  refine ⟨by decide!, by decide!, by decide!, by decide!, by decide!⟩

/-- C10, amended: in exact arithmetic, for `p1` and `p2` of equal length `≥ 1`, the
derivative of `polyadd p1 p2` is `polyadd` of the two derivatives, as coefficient vectors. -/
theorem polyder_linear_on_equal_length (p1 p2 : List ℚ) (hlen : p1.length = p2.length)
    (h1 : 1 ≤ p1.length) :
    ∃ d1 d2, polyder p1 = some d1 ∧ polyder p2 = some d2 ∧
      polyder (polyadd p1 p2) = some (polyadd d1 d2) := by
  obtain ⟨d1, hd1, hl1, hg1⟩ := polyder_spec p1 h1
  obtain ⟨d2, hd2, hl2, hg2⟩ := polyder_spec p2 (by omega)
  have hla : (polyadd p1 p2).length = p1.length := by rw [polyadd_length]; omega
  obtain ⟨d, hd, hl, hg⟩ := polyder_spec (polyadd p1 p2) (by omega)
  refine ⟨d1, d2, hd1, hd2, ?_⟩
  rw [hd]
  congr 1
  apply ext_getD
  · rw [hl, hla, polyadd_length, hl1, hl2]; omega
  · intro i hi
    rw [hl, hla] at hi
    rw [hg i (by omega), polyadd_getD_of_length_eq d1 d2 (by omega) i (by omega),
      hg1 i hi, hg2 i (by omega), polyadd_getD_of_length_eq p1 p2 hlen i (by omega), hla, hlen]
    ring

/-- Linearity at `[1, 2, 3]` and `[4, 5, 6]`. -/
theorem polyder_linear_on_equal_length_witness :
    ([1, 2, 3] : List ℚ).length = ([4, 5, 6] : List ℚ).length ∧
    1 ≤ ([1, 2, 3] : List ℚ).length ∧
    ∃ d1 d2, polyder [1, 2, 3] = some d1 ∧ polyder [4, 5, 6] = some d2 ∧
      polyder (polyadd [1, 2, 3] [4, 5, 6]) = some (polyadd d1 d2) :=
  ⟨by decide, by decide, polyder_linear_on_equal_length [1, 2, 3] [4, 5, 6] (by decide) (by decide)⟩

/-- C11: for `p` of length `2` at least, the sequence `S` built by `polysturm` has
`S[0] = p`, `S[1] = polyder p`, and every later term is the negated remainder of the two
terms before it, `S[i] = -polyrem(S[i-2], S[i-1])`. -/
theorem polysturm_recurrence (p : List ℚ) (hp : 2 ≤ p.length) :
    ∃ S d, polysturm p = some S ∧ polyder p = some d ∧ S[0]? = some p ∧ S[1]? = some d ∧
      ∀ i, 2 ≤ i → i < S.length →
        ∃ a b r, S[i - 2]? = some a ∧ S[i - 1]? = some b ∧ polyrem a b = some r ∧
          S[i]? = some (vneg r) := by
  obtain ⟨d, ext, hd, _, hext, _, hS, _, _, _⟩ := sturm_top p hp
  refine ⟨p :: d :: ext, d, hS, hd, by simp, by simp, fun i hi2 hi => ?_⟩
  obtain ⟨a, b, r, ha, hb, hr, ht⟩ :=
    sturm_tail_structure _ p d ext hext (i - 2) (by simp at hi; omega)
  have e1 : i - 1 = i - 2 + 1 := by omega
  have e2 : (p :: d :: ext)[i]? = ext[i - 2]? := by
    obtain ⟨j, rfl⟩ : ∃ j, i = j + 2 := ⟨i - 2, by omega⟩
    simp
  exact ⟨a, b, r, ha, by rw [e1]; exact hb, hr, by rw [e2]; exact ht⟩

/-- The recurrence on the sequence of `[1, -3, 2]`. -/
theorem polysturm_recurrence_witness :
    2 ≤ ([1, -3, 2] : List ℚ).length ∧
    ∃ S d, polysturm [1, -3, 2] = some S ∧ polyder [1, -3, 2] = some d ∧
      S[0]? = some ([1, -3, 2] : List ℚ) ∧ S[1]? = some d ∧
      ∀ i, 2 ≤ i → i < S.length →
        ∃ a b r, S[i - 2]? = some a ∧ S[i - 1]? = some b ∧ polyrem a b = some r ∧
          S[i]? = some (vneg r) :=
  ⟨by decide, polysturm_recurrence [1, -3, 2] (by decide)⟩

/-- C12: for `p` of length `2` at least with nonzero leading coefficient, `polysturm`
makes at most `deg p = len p - 1` calls of `polyrem`, so the sequence has at most
`deg p + 2` terms; among the terms of index `2` and more only the last can have length `1`;
and the last term has length `1` whenever fewer than `deg p` calls were made. -/
theorem polysturm_termination (p : List ℚ) (hp : 2 ≤ p.length) (_hlead : p[0]? ≠ some 0) :
    ∃ S calls, polysturm_traced p = some (S, calls) ∧ polysturm p = some S ∧
      calls.length ≤ p.length - 1 ∧ S.length = calls.length + 2 ∧
      S.length ≤ (p.length - 1) + 2 ∧
      (∀ i t, 2 ≤ i → i + 1 < S.length → S[i]? = some t → t.length ≠ 1) ∧
      (calls.length < p.length - 1 → ∃ t, S[S.length - 1]? = some t ∧ t.length = 1) := by
  obtain ⟨d, ext, _, _, hext, _, hS, hT, _, _⟩ := sturm_top p hp
  obtain ⟨h1, h2, h3, h4⟩ := sturm_tail_stop _ p d ext hext
  have hpos : 1 ≤ ext.length := h2 (by omega)
  refine ⟨p :: d :: ext, sturm_calls p d ext, hT, hS, ?_, ?_, ?_, ?_, ?_⟩
  · rw [sturm_calls_length]; exact h1
  · rw [sturm_calls_length]; simp
  · simp only [List.length_cons]; omega
  · intro i t hi2 hi ht
    obtain ⟨j, rfl⟩ : ∃ j, i = j + 2 := ⟨i - 2, by omega⟩
    have hj := h3 j (by simp at hi; omega)
    simp only [List.getElem?_cons_succ] at ht
    rw [List.getD_eq_getElem?_getD, ht] at hj
    simpa using hj
  · intro hlt
    rw [sturm_calls_length] at hlt
    have hl := h4 hlt
    have e : (p :: d :: ext).length - 1 = (ext.length - 1) + 2 := by
      simp only [List.length_cons]; omega
    refine ⟨ext.getD (ext.length - 1) [], ?_, hl⟩
    rw [e]
    simp only [List.getElem?_cons_succ, List.getD_eq_getElem?_getD]
    rw [List.getElem?_eq_getElem (by omega)]
    simp

/-- The bounds on the sequence of `[1, -3, 2]`. -/
theorem polysturm_termination_witness :
    2 ≤ ([1, -3, 2] : List ℚ).length ∧ ([1, -3, 2] : List ℚ)[0]? ≠ some 0 ∧
    ∃ S calls, polysturm_traced [1, -3, 2] = some (S, calls) ∧
      polysturm [1, -3, 2] = some S ∧
      calls.length ≤ ([1, -3, 2] : List ℚ).length - 1 ∧ S.length = calls.length + 2 ∧
      S.length ≤ (([1, -3, 2] : List ℚ).length - 1) + 2 ∧
      (∀ i t, 2 ≤ i → i + 1 < S.length → S[i]? = some t → t.length ≠ 1) ∧
      (calls.length < ([1, -3, 2] : List ℚ).length - 1 →
        ∃ t, S[S.length - 1]? = some t ∧ t.length = 1) :=
  ⟨by decide, by decide!, polysturm_termination [1, -3, 2] (by decide) (by decide!)⟩

/-- C13 fails.  For the polynomial `x + 1 = [1, 1]` of degree `1` the sequence has
lengths `2, 1, 1`, in binary64 and in exact arithmetic alike.  For `[2, 3, 2, 3, -1]` the
binary64 sequence has lengths `5, 4, 3, 3, 2, 1`: a rounding residue `2^-46 > 1e-14` is
kept at the head of the second remainder; in exact arithmetic its lengths are
`5, 4, 3, 2, 1`. -/
theorem polysturm_dbl_not_decreasing :
    (polysturm_traced_dbl [Dbl.fin 1, Dbl.fin 1]).map (fun r => r.1.map List.length)
      = some [2, 1, 1] ∧
    (polysturm_traced_dbl [Dbl.fin 2, Dbl.fin 3, Dbl.fin 2, Dbl.fin 3, Dbl.fin (-1)]).map
        (fun r => r.1.map List.length)
      = some [5, 4, 3, 3, 2, 1] ∧
    (polysturm [2, 3, 2, 3, -1]).map (fun S => S.map List.length) = some [5, 4, 3, 2, 1] := by
  refine ⟨by decide!, by decide!, by decide!⟩

/-- C13, amended: in exact arithmetic, for `p` of length `3` at least with nonzero leading
coefficient, every term of the sequence of `polysturm` is strictly shorter than the term
before it; for `p` of length `2` the sequence has three terms, of lengths `2, 1, 1`. -/
theorem polysturm_lengths (p : List ℚ) (hp : 2 ≤ p.length) (hlead : p[0]? ≠ some 0) :
    ∃ S, polysturm p = some S ∧
      (3 ≤ p.length → List.Chain' (fun a b : List ℚ => b.length < a.length) S) ∧
      (p.length = 2 → S.map List.length = [2, 1, 1]) := by
  obtain ⟨d, ext, hd, _, hext, hne, hS, _, _, _⟩ := sturm_top p hp
  obtain ⟨hdl, hd0⟩ := polyder_lead p d hp (lead_ne_zero p (by omega) hlead) hd
  refine ⟨p :: d :: ext, hS, fun h3 => ?_, fun h2 => ?_⟩
  · exact sturm_tail_chain _ p d ext (by omega) (by omega) hd0 hext
  · have e : p.length - 1 = 0 + 1 := by omega
    rw [e] at hext
    obtain ⟨r, hr, hcase⟩ := sturm_tail_succ 0 p d ext hext
    obtain ⟨_, rr, s, _, hrem, _, _, _, hge, hle, _⟩ :=
      polyrem_step p d (by omega) (by omega) hd0
    rw [hr] at hrem
    cases hrem
    have hone : (vneg (rr.drop s)).length = 1 := by
      rw [vneg_length]
      have : max 1 (d.length - 1) = 1 := by rw [hdl]; omega
      omega
    rcases hcase with ⟨_, hext2⟩ | ⟨c, _⟩
    · subst hext2
      simp only [List.map_cons, List.map_nil, hone, hdl, h2]
    · exact absurd hone c

/-- The lengths of the sequence of `[1, -3, 2]`. -/
theorem polysturm_lengths_witness :
    2 ≤ ([1, -3, 2] : List ℚ).length ∧ ([1, -3, 2] : List ℚ)[0]? ≠ some 0 ∧
    ∃ S, polysturm [1, -3, 2] = some S ∧
      (3 ≤ ([1, -3, 2] : List ℚ).length →
        List.Chain' (fun a b : List ℚ => b.length < a.length) S) ∧
      (([1, -3, 2] : List ℚ).length = 2 → S.map List.length = [2, 1, 1]) :=
  ⟨by decide, by decide!, polysturm_lengths [1, -3, 2] (by decide) (by decide!)⟩

/-- C14 fails: the divisor `[0, 5]` has leading coefficient `0`, and in binary64
`polyrem [1, 2] [0, 5]` returns the vector `[-inf]` (`scale = 1.0 / 0 = +inf`); no failure
is signalled. -/
theorem polyrem_dbl_zero_lead_returns :
    polyrem_dbl [Dbl.fin 1, Dbl.fin 2] [Dbl.zero false, Dbl.fin 5] = some [Dbl.inf true] := by
  decide!

/-- C14, amended: `polyrem` has no division-by-zero failure; in binary64, for every
non-empty `u` and every `v` whose leading coefficient is a zero (`+0` or `-0`), it returns a
non-empty vector. -/
theorem polyrem_dbl_zero_lead_no_failure (u v : List Dbl) (hu : u ≠ [])
    (hv0 : ∃ b, v[0]? = some (Dbl.zero b)) :
    ∃ r, polyrem_dbl u v = some r ∧ 1 ≤ r.length := by
  have hul := List.length_pos.mpr hu
  have hv : 1 ≤ v.length := by
    obtain ⟨b, hb⟩ := hv0
    cases v with
    | nil => simp at hb
    | cons a t => simp
  obtain ⟨q, r, s, _, hrem, hr, hs, _, _⟩ := polyrem_dbl_spec u v hv
  exact ⟨r.drop s, hrem, by rw [List.length_drop, hr]; omega⟩

/-- The call `polyrem [1, 2] [0, 5]` returns, in binary64. -/
theorem polyrem_dbl_zero_lead_no_failure_witness :
    [Dbl.fin 1, Dbl.fin 2] ≠ [] ∧
    (∃ b, [Dbl.zero false, Dbl.fin 5][0]? = some (Dbl.zero b)) ∧
    ∃ r, polyrem_dbl [Dbl.fin 1, Dbl.fin 2] [Dbl.zero false, Dbl.fin 5] = some r ∧
      1 ≤ r.length :=
  ⟨by decide, ⟨false, rfl⟩,
    polyrem_dbl_zero_lead_no_failure [Dbl.fin 1, Dbl.fin 2] [Dbl.zero false, Dbl.fin 5]
      (by decide) ⟨false, rfl⟩⟩

/-- C15 (the code departs from it): on the constant `[5]` the derivative is the empty
vector, the read `p1[p1.rows() - 1]` of `polycountroots` falls outside it, and the routine
has no defined result (`none`); likewise on the empty vector.  No check of the length is
made before the reads. -/
theorem polycountroots_constant_reads_outside :
    polyder [5] = some [] ∧ ([] : List ℚ)[([] : List ℚ).length - 1]? = none ∧
    polycountroots [5] = none ∧ polycountroots [] = none := by
  refine ⟨by decide!, by decide, by decide!, by decide!⟩

/-- C16 fails in binary64: for `u = [1e200, 1e200, 1, 1]` and `v = [1, 1e200]` the
elimination overflows, the raw buffer is `[0, NaN, NaN, -inf]`, and the scan strips the two
NaN entries (`abs(NaN) > 1e-14` is false), which have no magnitude `≤ 1e-14`; the remainder
returned is `[-inf]`. -/
theorem polyrem_dbl_strips_nan :
    polyrem_divide_dbl [Dbl.ofRat (10 ^ 200), Dbl.ofRat (10 ^ 200), Dbl.fin 1, Dbl.fin 1]
        [Dbl.fin 1, Dbl.ofRat (10 ^ 200)]
      = some ([Dbl.ofRat (10 ^ 200), Dbl.inf true, Dbl.inf false],
          [Dbl.zero false, Dbl.nan, Dbl.nan, Dbl.inf true]) ∧
    polyrem_dbl [Dbl.ofRat (10 ^ 200), Dbl.ofRat (10 ^ 200), Dbl.fin 1, Dbl.fin 1]
        [Dbl.fin 1, Dbl.ofRat (10 ^ 200)]
      = some [Dbl.inf true] ∧
    Dbl.lt (Dbl.abs Dbl.nan) tolD = false ∧ Dbl.abs Dbl.nan ≠ tolD := by
  refine ⟨by decide!, by decide!, by decide!, by decide!⟩

/-- C16, amended: in binary64, for non-empty `u` and `v` with `v[0] ≠ 0`, `polyrem u v` is
a suffix `rraw.drop s` of the raw buffer `rraw` of length `len u`; it is not empty; it has
length `1` or its first coefficient has magnitude above the double `1e-14` (it may be
infinite); and every stripped coefficient `rraw[j]`, `j < s`, fails the test
`abs(c) > 1e-14`: it is NaN, or a zero, or finite of magnitude at most `1e-14`. -/
theorem polyrem_dbl_trimming (u v : List Dbl) (hu : u ≠ []) (hv : v ≠ [])
    (_hv0 : ∀ b, v[0]? ≠ some (Dbl.zero b)) :
    ∃ q rraw s, polyrem_divide_dbl u v = some (q, rraw) ∧ rraw.length = u.length ∧
      polyrem_dbl u v = some (rraw.drop s) ∧ 1 ≤ (rraw.drop s).length ∧
      ((rraw.drop s).length = 1 ∨
        ∃ c, (rraw.drop s)[0]? = some c ∧
          ((∃ b, c = Dbl.inf b) ∨ ∃ x, c = Dbl.fin x ∧ tolD.val < |x|)) ∧
      ∀ j c, j < s → rraw[j]? = some c →
        (c = Dbl.nan ∨ (∃ b, c = Dbl.zero b) ∨ ∃ x, c = Dbl.fin x ∧ |x| ≤ tolD.val) := by
  have hul := List.length_pos.mpr hu
  obtain ⟨q, r, s, hdiv, hrem, hr, hs, hsmall, hbig⟩ :=
    polyrem_dbl_spec u v (List.length_pos.mpr hv)
  have hlen : (r.drop s).length = u.length - s := by rw [List.length_drop, hr]
  refine ⟨q, r, s, hdiv, hr, hrem, by omega, ?_, ?_⟩
  · by_cases c : (r.drop s).length = 1
    · left; exact c
    · right
      refine ⟨(r.drop s).getD 0 dzero, getElem?_eq_some_getD_dbl _ 0 (by omega), ?_⟩
      rw [← aboveTol_eq_true, getD_drop_dbl, Nat.add_zero]
      exact hbig (by omega)
  · intro j c hj hc
    have := hsmall j hj
    rw [List.getD_eq_getElem?_getD, hc] at this
    exact (aboveTol_eq_false c).mp (by simpa using this)

/-- The trimming of `polyrem [1, -3, 2] [2, -3]`, in binary64. -/
theorem polyrem_dbl_trimming_witness :
    [Dbl.fin 1, Dbl.fin (-3), Dbl.fin 2] ≠ [] ∧ [Dbl.fin 2, Dbl.fin (-3)] ≠ [] ∧
    (∀ b, [Dbl.fin 2, Dbl.fin (-3)][0]? ≠ some (Dbl.zero b)) ∧
    ∃ q rraw s,
      polyrem_divide_dbl [Dbl.fin 1, Dbl.fin (-3), Dbl.fin 2] [Dbl.fin 2, Dbl.fin (-3)]
        = some (q, rraw) ∧
      rraw.length = [Dbl.fin 1, Dbl.fin (-3), Dbl.fin 2].length ∧
      polyrem_dbl [Dbl.fin 1, Dbl.fin (-3), Dbl.fin 2] [Dbl.fin 2, Dbl.fin (-3)]
        = some (rraw.drop s) ∧
      1 ≤ (rraw.drop s).length ∧
      ((rraw.drop s).length = 1 ∨
        ∃ c, (rraw.drop s)[0]? = some c ∧
          ((∃ b, c = Dbl.inf b) ∨ ∃ x, c = Dbl.fin x ∧ tolD.val < |x|)) ∧
      ∀ j c, j < s → rraw[j]? = some c →
        (c = Dbl.nan ∨ (∃ b, c = Dbl.zero b) ∨ ∃ x, c = Dbl.fin x ∧ |x| ≤ tolD.val) :=
  ⟨by decide, by decide, fun b => by simp,
    polyrem_dbl_trimming [Dbl.fin 1, Dbl.fin (-3), Dbl.fin 2] [Dbl.fin 2, Dbl.fin (-3)]
      (by decide) (by decide) (fun b => by simp)⟩

/-- C17: for `p` of length `2` at least, with `S` the sequence of `polysturm`, whose terms
are all non-empty, `polycountroots p` is `V0 - Vinf`: the number of adjacent pairs of `S`
whose last coefficients differ in `sgn`, minus the number of adjacent pairs whose leading
coefficients differ in `sgn`; and `sgn` takes its values in `-1, 0, 1`. -/
theorem polycountroots_eq_sign_changes (p : List ℚ) (hp : 2 ≤ p.length) :
    ∃ S, polysturm p = some S ∧ (∀ q ∈ S, q ≠ []) ∧
      polycountroots p = some ((signChangesAtZero S : Int) - (signChangesAtInfinity S : Int)) ∧
      ∀ x : ℚ, sgn x = -1 ∨ sgn x = 0 ∨ sgn x = 1 := by
  obtain ⟨d, ext, _, hdl, _, hne, hS, _, hC, _⟩ := sturm_top p hp
  refine ⟨p :: d :: ext, hS, ?_, hC, fun x => ?_⟩
  · intro q hq
    apply List.ne_nil_of_length_pos
    rcases List.mem_cons.mp hq with h | h
    · rw [h]; omega
    · rcases List.mem_cons.mp h with h | h
      · rw [h]; omega
      · exact hne q h
  · unfold sgn
    rcases lt_trichotomy x 0 with h | h | h
    · left; rw [if_neg (not_lt.mpr h.le), if_pos h]; rfl
    · right; left; subst h; simp
    · right; right; rw [if_pos h, if_neg (not_lt.mpr h.le)]; rfl

/-- The count of `[1, 0, -1]` as a difference of sign changes. -/
theorem polycountroots_eq_sign_changes_witness :
    2 ≤ ([1, 0, -1] : List ℚ).length ∧
    ∃ S, polysturm [1, 0, -1] = some S ∧ (∀ q ∈ S, q ≠ []) ∧
      polycountroots [1, 0, -1]
        = some ((signChangesAtZero S : Int) - (signChangesAtInfinity S : Int)) ∧
      ∀ x : ℚ, sgn x = -1 ∨ sgn x = 0 ∨ sgn x = 1 :=
  ⟨by decide, polycountroots_eq_sign_changes [1, 0, -1] (by decide)⟩

/-- C18 fails in binary64: for `p1 = [1, 1]`, `p2 = [1, -1]` and `x = 2^53`, the product
`polymul p1 p2 = [1, 0, -1]` evaluates to `2^106`, and the product of the two evaluations
is `2^106 - 2^53`. -/
theorem polyval_dbl_polymul_differs :
    polymul_dbl [Dbl.fin 1, Dbl.fin 1] [Dbl.fin 1, Dbl.fin (-1)]
      = some [Dbl.fin 1, Dbl.zero false, Dbl.fin (-1)] ∧
    polyval_dbl [Dbl.fin 1, Dbl.zero false, Dbl.fin (-1)] (Dbl.fin 9007199254740992)
      = Dbl.fin 81129638414606681695789005144064 ∧
    Dbl.mul (polyval_dbl [Dbl.fin 1, Dbl.fin 1] (Dbl.fin 9007199254740992))
        (polyval_dbl [Dbl.fin 1, Dbl.fin (-1)] (Dbl.fin 9007199254740992))
      = Dbl.fin 81129638414606672688589750403072 := by
  refine ⟨by decide!, by decide!, by decide!⟩

/-- C18, amended: in exact arithmetic, for non-empty `p1`, `p2` and every `x`,
`polyval (polymul p1 p2) x = polyval p1 x * polyval p2 x`. -/
theorem polyval_polymul (p1 p2 : List ℚ) (h1 : p1 ≠ []) (h2 : p2 ≠ []) (x : ℚ) :
    ∃ r, polymul p1 p2 = some r ∧ polyval r x = polyval p1 x * polyval p2 x := by
  have hl1 := List.length_pos.mpr h1
  have hl2 := List.length_pos.mpr h2
  have hm := polymul_eq_some p1 p2 (by omega)
  refine ⟨_, hm, ?_⟩
  rw [polyval_eq_eval, toPoly_polymul p1 p2 _ hl1 hl2 hm, Polynomial.eval_mul,
    ← polyval_eq_eval, ← polyval_eq_eval]

/-- The product of `[1, 2]` and `[1, 3, 4]` evaluated at `5`. -/
theorem polyval_polymul_witness :
    ([1, 2] : List ℚ) ≠ [] ∧ ([1, 3, 4] : List ℚ) ≠ [] ∧
    ∃ r, polymul [1, 2] [1, 3, 4] = some r ∧
      polyval r (5 : ℚ) = polyval [1, 2] (5 : ℚ) * polyval [1, 3, 4] (5 : ℚ) :=
  ⟨by decide, by decide, polyval_polymul [1, 2] [1, 3, 4] (by decide) (by decide) 5⟩

/-- C19: for non-empty `u` and `v` with `v[0] ≠ 0`, the elimination loop leaves zeros in
the first `len u - len v + 1` entries of the buffer (none when `u` is shorter than `v`), the
scan passes them (it always keeps the last entry), and the remainder returned has length at
most `max 1 (len v - 1)`. -/
theorem polyrem_degree_reduction (u v : List ℚ) (hu : u ≠ []) (hv : v ≠ [])
    (hv0 : v[0]? ≠ some 0) :
    ∃ q rraw s, polyrem_divide u v = some (q, rraw) ∧ rraw.length = u.length ∧
      (∀ j c, j < u.length + 1 - v.length → rraw[j]? = some c → c = 0) ∧
      min (u.length + 1 - v.length) (u.length - 1) ≤ s ∧
      polyrem u v = some (rraw.drop s) ∧ (rraw.drop s).length ≤ max 1 (v.length - 1) := by
  have hul := List.length_pos.mpr hu
  have hvl := List.length_pos.mpr hv
  have h0 := lead_ne_zero v hvl hv0
  obtain ⟨q, r, s, hdiv, hrem, hr, hs, _, _, hle, _⟩ := polyrem_step u v hul hvl h0
  obtain ⟨q2, r2, _, hdiv2, _, _, _, _, hzero, _, _, _⟩ := polyrem_spec u v hvl
  rw [hdiv] at hdiv2
  cases hdiv2
  have hlen : (r.drop s).length = u.length - s := by rw [List.length_drop, hr]
  refine ⟨q, r, s, hdiv, hr, ?_, ?_, hrem, hle⟩
  · intro j c hj hc
    have := hzero h0 j hj
    rw [List.getD_eq_getElem?_getD, hc] at this
    simpa using this
  · rw [hlen] at hle
    rcases le_max_iff.mp hle with h | h
    · exact le_trans (min_le_right _ _) (by omega)
    · exact le_trans (min_le_left _ _) (by omega)

/-- The length of `polyrem [1, -3, 2] [2, -3]`. -/
theorem polyrem_degree_reduction_witness :
    ([1, -3, 2] : List ℚ) ≠ [] ∧ ([2, -3] : List ℚ) ≠ [] ∧ ([2, -3] : List ℚ)[0]? ≠ some 0 ∧
    ∃ q rraw s, polyrem_divide [1, -3, 2] [2, -3] = some (q, rraw) ∧
      rraw.length = ([1, -3, 2] : List ℚ).length ∧
      (∀ j c, j < ([1, -3, 2] : List ℚ).length + 1 - ([2, -3] : List ℚ).length →
        rraw[j]? = some c → c = 0) ∧
      min (([1, -3, 2] : List ℚ).length + 1 - ([2, -3] : List ℚ).length)
        (([1, -3, 2] : List ℚ).length - 1) ≤ s ∧
      polyrem [1, -3, 2] [2, -3] = some (rraw.drop s) ∧
      (rraw.drop s).length ≤ max 1 (([2, -3] : List ℚ).length - 1) :=
  ⟨by decide, by decide, by decide!,
    polyrem_degree_reduction [1, -3, 2] [2, -3] (by decide) (by decide) (by decide!)⟩

end genrp
